import Mathlib

/-!
# Verification of `thegraph-gql-utils` canonicalization passes

Shallow embedding of the GraphQL AST rewriting passes implemented in
`src/thegraph_gql_utils/tools.py` and `src/thegraph_gql_utils/visitors.py`
(on top of `graphql-core`'s AST), together with proofs and refutations of
the specified properties.

The AST model follows `graphql.language.ast` restricted to the node kinds
the passes operate on (locations and directives are not modelled; none of
the verified passes reads or writes them).  Python's in-place effects are
made explicit by state passing, fallible code returns `Option`/`Except`,
and `graphql-core`'s generator-based visit is rendered as structural
recursion following the visitor's enter/leave semantics.
-/

namespace Gql

/-- `graphql.language.ast` value nodes (`ValueNode` subclasses).
`IntValueNode`/`FloatValueNode` store the literal text as a string, as in
`graphql-core`. `objV` is `ObjectValueNode` (ordered name/value fields),
`varV` is `VariableNode`. -/
inductive Value where
  | intV (v : String)
  | floatV (v : String)
  | strV (v : String)
  | boolV (b : Bool)
  | nullV
  | enumV (v : String)
  | listV (vs : List Value)
  | objV (fields : List (String × Value))
  | varV (name : String)

/-- `ArgumentNode`: a name and a value. -/
structure Argument where
  name : String
  value : Value

/-- Selections (`FieldNode`, `FragmentSpreadNode`, `InlineFragmentNode`).
A field's optional selection set is `Option (List Selection)`, matching
`FieldNode.selection_set : Optional[SelectionSetNode]`.  The Python
`alias` attribute is called `alias_` (`alias` is reserved in Lean). -/
inductive Selection where
  | field (alias_ : Option String) (name : String) (arguments : List Argument)
      (selectionSet : Option (List Selection))
  | fragmentSpread (name : String)
  | inlineFragment (typeCondition : Option String) (selections : List Selection)

/-- `OperationType`. -/
inductive OperationType where
  | query
  | mutation
  | subscription
deriving DecidableEq

/-- `VariableDefinitionNode`: variable name, declared type reference
(kept abstract as its printed form, the passes only carry it around),
optional default value. -/
structure VariableDefinition where
  variable_ : String
  type : String
  defaultValue : Option Value

/-- `OperationDefinitionNode`. -/
structure OperationDefinition where
  operation : OperationType
  name : Option String
  variableDefinitions : List VariableDefinition
  selectionSet : List Selection

/-- Top-level definitions: operation or fragment definition. -/
inductive Definition where
  | operation (op : OperationDefinition)
  | fragment (name : String) (typeCondition : String) (selectionSet : List Selection)

/-- `DocumentNode`. -/
structure Document where
  definitions : List Definition

/-! ## Python string comparison

`SortVisitor` sorts node lists with Python's `sorted(..., key=str)`.
Python compares strings lexicographically by Unicode code point; we model
that directly on the character lists of Lean strings (the built-in
`String` order does not reduce in the kernel). -/

/-- Strict lexicographic comparison of char lists by code point,
modelling Python's `<` on `str`. -/
def strLtB : List Char → List Char → Bool
  | [], [] => false
  | [], _ :: _ => true
  | _ :: _, [] => false
  | a :: as, b :: bs =>
    if a.toNat < b.toNat then true
    else if b.toNat < a.toNat then false
    else strLtB as bs

/-- `a ≤ b` on strings, as used by a stable sort modelling Python's
`sorted`. -/
def strLe (a b : String) : Bool := ! strLtB b.data a.data

theorem strLtB_asymm : ∀ a b : List Char, strLtB a b = true → strLtB b a = false := by
  intro a
  induction a with
  | nil => intro b _; cases b <;> simp [strLtB]
  | cons x xs ih =>
    intro b hab
    cases b with
    | nil => simp [strLtB] at hab
    | cons y ys =>
      simp only [strLtB] at hab ⊢
      by_cases hxy : x.toNat < y.toNat
      · have : ¬ y.toNat < x.toNat := Nat.lt_asymm hxy
        simp [hxy, this]
      · by_cases hyx : y.toNat < x.toNat
        · simp [hxy, hyx] at hab
        · simp [hxy, hyx] at hab ⊢
          exact ih ys hab

theorem strLe_total (a b : String) : strLe a b = true ∨ strLe b a = true := by
  by_cases h : strLtB b.data a.data = true
  · right
    have := strLtB_asymm _ _ h
    simp [strLe, this]
  · left
    simp [strLe] at h ⊢
    exact h

/-! ## Stable sort

Python's `sorted` is a stable sort; we model it by stable insertion sort
over a boolean "key less-or-equal" relation.  An element is inserted in
front of the first element it is `≤` to, so elements with equal keys keep
their original relative order, exactly as Python's stable sort does. -/

/-- Insert `x` in front of the first element `y` with `le x y`. -/
def insertLe (le : α → α → Bool) (x : α) : List α → List α
  | [] => [x]
  | y :: ys => if le x y then x :: y :: ys else y :: insertLe le x ys

/-- Stable insertion sort modelling Python's `sorted`. -/
def sortLe (le : α → α → Bool) : List α → List α
  | [] => []
  | x :: xs => insertLe le x (sortLe le xs)

theorem mem_insertLe (le : α → α → Bool) (x : α) :
    ∀ l (a : α), a ∈ insertLe le x l → a = x ∨ a ∈ l := by
  intro l
  induction l with
  | nil => intro a ha; simp [insertLe] at ha; exact Or.inl ha
  | cons y ys ih =>
    intro a ha
    simp only [insertLe] at ha
    by_cases h : le x y = true
    · simp [h] at ha
      rcases ha with h1 | h1 | h1
      · exact Or.inl h1
      · exact Or.inr (by simp [h1])
      · exact Or.inr (by simp [h1])
    · simp [h] at ha
      rcases ha with h1 | h1
      · exact Or.inr (by simp [h1])
      · rcases ih a h1 with h2 | h2
        · exact Or.inl h2
        · exact Or.inr (by simp [h2])

theorem mem_sortLe (le : α → α → Bool) :
    ∀ l (a : α), a ∈ sortLe le l → a ∈ l := by
  intro l
  induction l with
  | nil => intro a ha; simp [sortLe] at ha
  | cons x xs ih =>
    intro a ha
    simp only [sortLe] at ha
    rcases mem_insertLe le x _ a ha with h | h
    · simp [h]
    · exact List.mem_cons_of_mem _ (ih a h)

/-- The chain property "each adjacent pair satisfies `le`". -/
def ChainLe (le : α → α → Bool) : List α → Prop :=
  List.Chain' (fun a b => le a b = true)

theorem chainLe_insertLe (le : α → α → Bool)
    (htot : ∀ a b, le a b = true ∨ le b a = true) (x : α) :
    ∀ l, ChainLe le l → ChainLe le (insertLe le x l) := by
  intro l
  induction l with
  | nil => intro _; simp [insertLe, ChainLe]
  | cons y ys ih =>
    intro hchain
    simp only [insertLe]
    by_cases h : le x y = true
    · simp only [h, if_true]
      exact List.Chain'.cons h hchain
    · simp only [h, if_false]
      have hyx : le y x = true := by
        rcases htot x y with h1 | h1
        · exact absurd h1 h
        · exact h1
      have htail : ChainLe le (insertLe le x ys) :=
        ih (List.Chain'.tail hchain)
      cases hys : insertLe le x ys with
      | nil => simp [ChainLe]
      | cons z zs =>
        have hyz : le y z = true := by
          -- the new head `z` is either `x` itself or the old head of `ys`
          cases ys with
          | nil =>
            simp [insertLe] at hys
            rw [← hys.1]
            exact hyx
          | cons w ws =>
            simp only [insertLe] at hys
            by_cases hxw : le x w = true
            · simp [hxw] at hys
              rw [← hys.1]
              exact hyx
            · simp [hxw] at hys
              rw [← hys.1]
              rcases hchain with _ | ⟨hyw, _⟩
              exact hyw
        rw [hys] at htail
        exact List.Chain'.cons hyz htail

theorem chainLe_sortLe (le : α → α → Bool)
    (htot : ∀ a b, le a b = true ∨ le b a = true) :
    ∀ l, ChainLe le (sortLe le l) := by
  intro l
  induction l with
  | nil => simp [sortLe, ChainLe]
  | cons x xs ih => exact chainLe_insertLe le htot x _ ih

theorem sortLe_of_chainLe (le : α → α → Bool) :
    ∀ l, ChainLe le l → sortLe le l = l := by
  intro l
  induction l with
  | nil => intro _; rfl
  | cons x xs ih =>
    intro hchain
    have hxs : sortLe le xs = xs := ih (List.Chain'.tail hchain)
    simp only [sortLe, hxs]
    cases xs with
    | nil => rfl
    | cons y ys =>
      rcases hchain with _ | ⟨hxy, _⟩
      simp [insertLe, hxy]

theorem map_eq_self_of {f : α → α} :
    ∀ l : List α, (∀ a ∈ l, f a = a) → l.map f = l := by
  intro l
  induction l with
  | nil => intro _; rfl
  | cons x xs ih =>
    intro h
    simp only [List.map_cons]
    rw [h x (by simp), ih (fun a ha => h a (List.mem_cons_of_mem _ ha))]

/-- Key lemma for idempotence of the sorting passes: re-sorting the
output of `sortLe le (l.map f)` after re-applying an `f` that is
idempotent on the members of `l` changes nothing. -/
theorem sortLe_map_idem (le : α → α → Bool)
    (htot : ∀ a b, le a b = true ∨ le b a = true) (f : α → α) (l : List α)
    (hf : ∀ a ∈ l, f (f a) = f a) :
    sortLe le ((sortLe le (l.map f)).map f) = sortLe le (l.map f) := by
  have hmap : (sortLe le (l.map f)).map f = sortLe le (l.map f) := by
    apply map_eq_self_of
    intro a ha
    have hmem : a ∈ l.map f := mem_sortLe le _ a ha
    rcases List.mem_map.mp hmem with ⟨b, hb, rfl⟩
    exact hf b hb
  rw [hmap]
  exact sortLe_of_chainLe le _ (chainLe_sortLe le htot _)

/-! ## Printing (`misc.ast2str` / `graphql.language.print_ast`)

`SortVisitor.node_sort_key` serializes nodes with `ast2str` (the
`graphql-core` printer; the printer's string-escape step composed with
`ast2str`'s `unicode_escape` decode is the identity on the plain strings
modelled here).  The printer indents nested selection sets by two spaces
and joins non-empty fragments with separators, which we reproduce. -/

/-- Two-space indentation after every newline (graphql-core `indent`). -/
def indentChars : List Char → List Char
  | [] => []
  | c :: cs =>
    if c = '\n' then c :: ' ' :: ' ' :: indentChars cs
    else c :: indentChars cs

/-- graphql-core `indent`: prefix two spaces and indent embedded lines. -/
def indentStr (s : String) : String := "  " ++ String.mk (indentChars s.data)

/-- graphql-core `join`: join the non-empty entries with a separator. -/
def joinNonEmpty (sep : String) (xs : List String) : String :=
  String.intercalate sep (xs.filter (fun s => !(s == "")))

/-- graphql-core `block`: a brace-enclosed, indented, newline-separated
block, or the empty string for no entries. -/
def braceBlock (items : List String) : String :=
  if items.isEmpty then ""
  else "\x7b\n" ++ indentStr (String.intercalate "\n" items) ++ "\n\x7d"

mutual

/-- Printer for value nodes, following `graphql-core`'s printer.  -/
def printValue : Value → String
  | .intV v => v
  | .floatV v => v
  | .strV v => "\"" ++ v ++ "\""
  | .boolV b => if b then "true" else "false"
  | .nullV => "null"
  | .enumV v => v
  | .varV n => "$" ++ n
  | .listV vs => "[" ++ printValueList vs ++ "]"
  | .objV fs => "\x7b" ++ printObjFieldList fs ++ "\x7d"

def printValueList : List Value → String
  | [] => ""
  | [v] => printValue v
  | v :: vs => printValue v ++ ", " ++ printValueList vs

def printObjFieldList : List (String × Value) → String
  | [] => ""
  | [f] => f.1 ++ ": " ++ printValue f.2
  | f :: fs => f.1 ++ ": " ++ printValue f.2 ++ ", " ++ printObjFieldList fs

end

/-- Printer for `ArgumentNode` (`name: value`). -/
def printArgument (a : Argument) : String := a.name ++ ": " ++ printValue a.value

/-- Printer for an `ObjectValueNode` field (`name: value`). -/
def printObjField (f : String × Value) : String := f.1 ++ ": " ++ printValue f.2

mutual

/-- Printer for selections, following `graphql-core`'s printer
(`alias: name(args) { … }` with two-space indented blocks). -/
def printSelection : Selection → String
  | .field alias_ name args ss? =>
    let aliasStr := match alias_ with
      | none => ""
      | some a => a ++ ": "
    let argsStr :=
      if args.isEmpty then ""
      else "(" ++ String.intercalate ", " (printArgumentList args) ++ ")"
    joinNonEmpty " " [aliasStr ++ name ++ argsStr, printSelectionSetOpt ss?]
  | .fragmentSpread name => "..." ++ name
  | .inlineFragment tc ss =>
    let tcStr := match tc with
      | none => ""
      | some t => "on " ++ t
    joinNonEmpty " " ["...", tcStr, braceBlock (printSelectionList ss)]

def printArgumentList : List Argument → List String
  | [] => []
  | a :: as => printArgument a :: printArgumentList as

def printSelectionList : List Selection → List String
  | [] => []
  | s :: ss => printSelection s :: printSelectionList ss

def printSelectionSetOpt : Option (List Selection) → String
  | none => ""
  | some ss => braceBlock (printSelectionList ss)

end

/-! ## `RemoveAliasesVisitor` (alias stripping)

`enter_field` clears the alias of every field; used standalone by
`remove_aliases` and inside `SortVisitor.node_sort_key`. -/

mutual

/-- `RemoveAliasesVisitor` on one selection subtree. -/
def removeAliasesSelection : Selection → Selection
  | .field _ name args ss? => .field none name args (removeAliasesSelOpt ss?)
  | .fragmentSpread name => .fragmentSpread name
  | .inlineFragment tc ss => .inlineFragment tc (removeAliasesSelList ss)

def removeAliasesSelOpt : Option (List Selection) → Option (List Selection)
  | none => none
  | some ss => some (removeAliasesSelList ss)

def removeAliasesSelList : List Selection → List Selection
  | [] => []
  | s :: ss => removeAliasesSelection s :: removeAliasesSelList ss

end

/-- `remove_aliases` (tools.py): clear every field alias. -/
def remove_aliases (d : Document) : Document :=
  ⟨d.definitions.map fun df =>
    match df with
    | .operation op => .operation { op with selectionSet := removeAliasesSelList op.selectionSet }
    | .fragment n tc ss => .fragment n tc (removeAliasesSelList ss)⟩

/-! ## `SortVisitor` (tools.py `sort`)

Bottom-up (leave-hook) stable sort of argument lists, object-value field
lists, and selection lists, keyed by the serialized text of the
alias-stripped node (`node_sort_key`). -/

/-- `SortVisitor.node_sort_key` for selections: serialized text of the
alias-stripped node. -/
def selKey (s : Selection) : String := printSelection (removeAliasesSelection s)

/-- Sort relation on selections: compare serialized alias-stripped text. -/
def selLe (a b : Selection) : Bool := strLe (selKey a) (selKey b)

/-- Sort relation on arguments (alias stripping does not change an
argument: no field node occurs inside value nodes). -/
def argLe (a b : Argument) : Bool := strLe (printArgument a) (printArgument b)

/-- Sort relation on object-value fields. -/
def objFieldLe (a b : String × Value) : Bool := strLe (printObjField a) (printObjField b)

mutual

/-- `SortVisitor.leave_object_value` applied bottom-up through a value:
sort every object value's fields by serialized text (list values are
traversed but their element order is kept: the visitor has no
`leave_list_value` hook). -/
def sortValue : Value → Value
  | .listV vs => .listV (sortValueList vs)
  | .objV fs => .objV (sortLe objFieldLe (sortObjFieldList fs))
  | .intV v => .intV v
  | .floatV v => .floatV v
  | .strV v => .strV v
  | .boolV b => .boolV b
  | .nullV => .nullV
  | .enumV v => .enumV v
  | .varV n => .varV n

def sortValueList : List Value → List Value
  | [] => []
  | v :: vs => sortValue v :: sortValueList vs

def sortObjFieldList : List (String × Value) → List (String × Value)
  | [] => []
  | f :: fs => (f.1, sortValue f.2) :: sortObjFieldList fs

end

mutual

/-- `SortVisitor.leave_field` / `leave_selection_set` applied bottom-up:
children are processed first (the hooks run on leave), then the current
argument or selection list is stably sorted by serialized text. -/
def sortSelection : Selection → Selection
  | .field alias_ name args ss? =>
    .field alias_ name (sortLe argLe (sortArgumentList args))
      (match ss? with
       | none => none
       | some ss => some (sortLe selLe (sortSelectionList ss)))
  | .fragmentSpread name => .fragmentSpread name
  | .inlineFragment tc ss => .inlineFragment tc (sortLe selLe (sortSelectionList ss))

def sortArgumentList : List Argument → List Argument
  | [] => []
  | a :: as => ⟨a.name, sortValue a.value⟩ :: sortArgumentList as

def sortSelectionList : List Selection → List Selection
  | [] => []
  | s :: ss => sortSelection s :: sortSelectionList ss

end

/-- One selection set processed by `SortVisitor` (children first, then
the stable sort of the current list). -/
def sortSelectionSet (ss : List Selection) : List Selection :=
  sortLe selLe (sortSelectionList ss)

/-- `SortVisitor` on a variable definition: only object values inside the
default value have a sorting hook. -/
def sortVariableDefinition (vd : VariableDefinition) : VariableDefinition :=
  { vd with defaultValue := vd.defaultValue.map sortValue }

/-- `SortVisitor` on a top-level definition. -/
def sortDefinition : Definition → Definition
  | .operation op =>
    .operation { op with
      variableDefinitions := op.variableDefinitions.map sortVariableDefinition,
      selectionSet := sortSelectionSet op.selectionSet }
  | .fragment n tc ss => .fragment n tc (sortSelectionSet ss)

/-- `sort` (tools.py): `gql.language.visit(query, SortVisitor())`. -/
def sort (d : Document) : Document := ⟨d.definitions.map sortDefinition⟩

/-! ### Idempotence of `sort` -/

theorem sortValueList_eq_map (vs : List Value) : sortValueList vs = vs.map sortValue := by
  induction vs with
  | nil => rfl
  | cons v vs ih => simp [sortValueList, ih]

theorem sortObjFieldList_eq_map (fs : List (String × Value)) :
    sortObjFieldList fs = fs.map (fun f => (f.1, sortValue f.2)) := by
  induction fs with
  | nil => rfl
  | cons f fs ih => simp [sortObjFieldList, ih]

theorem sortArgumentList_eq_map (args : List Argument) :
    sortArgumentList args = args.map (fun a => ⟨a.name, sortValue a.value⟩) := by
  induction args with
  | nil => rfl
  | cons a as ih => simp [sortArgumentList, ih]

theorem sortSelectionList_eq_map (ss : List Selection) :
    sortSelectionList ss = ss.map sortSelection := by
  induction ss with
  | nil => rfl
  | cons s ss ih => simp [sortSelectionList, ih]

theorem argLe_total (a b : Argument) : argLe a b = true ∨ argLe b a = true :=
  strLe_total _ _

theorem selLe_total (a b : Selection) : selLe a b = true ∨ selLe b a = true :=
  strLe_total _ _

theorem objFieldLe_total (a b : String × Value) :
    objFieldLe a b = true ∨ objFieldLe b a = true :=
  strLe_total _ _

mutual

theorem sortValue_idem (v : Value) : sortValue (sortValue v) = sortValue v := by
  match v with
  | .listV vs =>
    simp only [sortValue, Value.listV.injEq]
    rw [sortValueList_eq_map, sortValueList_eq_map, List.map_map]
    exact List.map_congr_left fun a ha => by
      simp only [Function.comp_apply]
      exact sortValue_idem_memList vs a ha
  | .objV fs =>
    simp only [sortValue, Value.objV.injEq]
    rw [sortObjFieldList_eq_map, sortObjFieldList_eq_map]
    exact sortLe_map_idem objFieldLe objFieldLe_total _ fs
      (fun f hf => by
        simp only [Prod.mk.injEq, true_and]
        exact sortValue_idem_memObj fs f.1 f.2 hf)
  | .intV v => rfl
  | .floatV v => rfl
  | .strV v => rfl
  | .boolV b => rfl
  | .nullV => rfl
  | .enumV v => rfl
  | .varV n => rfl
termination_by sizeOf v

theorem sortValue_idem_memList (vs : List Value) :
    ∀ v ∈ vs, sortValue (sortValue v) = sortValue v := by
  match vs with
  | [] => intro v hv; simp at hv
  | w :: ws =>
    intro v hv
    rcases List.mem_cons.mp hv with heq | h
    · rw [heq]; exact sortValue_idem w
    · exact sortValue_idem_memList ws v h
termination_by sizeOf vs

theorem sortValue_idem_memObj (fs : List (String × Value)) :
    ∀ n v, (n, v) ∈ fs → sortValue (sortValue v) = sortValue v := by
  match fs with
  | [] => intro n v hv; simp at hv
  | g :: gs =>
    intro n v hv
    rcases List.mem_cons.mp hv with heq | h
    · have : v = g.2 := by rw [← heq]
      subst this
      exact sortValue_idem g.2
    · exact sortValue_idem_memObj gs n v h
termination_by sizeOf fs

end

mutual

theorem sortSelection_idem (s : Selection) : sortSelection (sortSelection s) = sortSelection s := by
  match s with
  | .field alias_ name args none =>
    simp only [sortSelection, Selection.field.injEq, true_and, and_true]
    rw [sortArgumentList_eq_map, sortArgumentList_eq_map]
    exact sortLe_map_idem argLe argLe_total _ args
      (fun a _ => by simp only [sortValue_idem])
  | .field alias_ name args (some ss) =>
    simp only [sortSelection, Selection.field.injEq, true_and, Option.some.injEq]
    refine ⟨?_, ?_⟩
    · rw [sortArgumentList_eq_map, sortArgumentList_eq_map]
      exact sortLe_map_idem argLe argLe_total _ args
        (fun a _ => by simp only [sortValue_idem])
    · rw [sortSelectionList_eq_map, sortSelectionList_eq_map]
      exact sortLe_map_idem selLe selLe_total _ ss
        (fun t ht => sortSelection_idem_mem ss t ht)
  | .fragmentSpread name => rfl
  | .inlineFragment tc ss =>
    simp only [sortSelection, Selection.inlineFragment.injEq, true_and]
    rw [sortSelectionList_eq_map, sortSelectionList_eq_map]
    exact sortLe_map_idem selLe selLe_total _ ss
      (fun t ht => sortSelection_idem_mem ss t ht)
termination_by sizeOf s

theorem sortSelection_idem_mem (ss : List Selection) :
    ∀ s ∈ ss, sortSelection (sortSelection s) = sortSelection s := by
  match ss with
  | [] => intro s hs; simp at hs
  | t :: ts =>
    intro s hs
    rcases List.mem_cons.mp hs with heq | h
    · rw [heq]; exact sortSelection_idem t
    · exact sortSelection_idem_mem ts s h
termination_by sizeOf ss

end

theorem sortSelectionSet_idem (ss : List Selection) :
    sortSelectionSet (sortSelectionSet ss) = sortSelectionSet ss := by
  unfold sortSelectionSet
  rw [sortSelectionList_eq_map, sortSelectionList_eq_map]
  exact sortLe_map_idem selLe selLe_total _ ss
    (fun s _ => by simp only [Function.comp_apply, sortSelection_idem])

theorem sortVariableDefinition_idem (vd : VariableDefinition) :
    sortVariableDefinition (sortVariableDefinition vd) = sortVariableDefinition vd := by
  unfold sortVariableDefinition
  cases vd.defaultValue with
  | none => rfl
  | some v => simp [Option.map, sortValue_idem]

theorem sortDefinition_idem (df : Definition) :
    sortDefinition (sortDefinition df) = sortDefinition df := by
  match df with
  | .operation op =>
    simp only [sortDefinition, Definition.operation.injEq]
    cases op with
    | mk operation name vardefs sels =>
      simp only [OperationDefinition.mk.injEq, true_and]
      constructor
      · rw [List.map_map]
        exact List.map_congr_left fun vd _ => by
          simp only [Function.comp_apply, sortVariableDefinition_idem]
      · exact sortSelectionSet_idem sels
  | .fragment n tc ss =>
    simp only [sortDefinition, Definition.fragment.injEq, true_and]
    exact sortSelectionSet_idem ss

/-- Sanity check against `tests/tools/test_sort.py` (first case, inner
`votes` field): arguments and selections are sorted by serialized text,
ties keeping their original order. -/
theorem sort_matches_test_case :
    sortSelection
      (.field none "votes"
        [⟨"capital", .enumV "fossil"⟩, ⟨"a", .enumV "b"⟩, ⟨"a", .enumV "a"⟩]
        (some [.field none "voter"
                 [⟨"c", .enumV "b"⟩, ⟨"a", .enumV "b"⟩, ⟨"b", .enumV "a"⟩, ⟨"a", .enumV "c"⟩]
                 (some [.field none "cthing" [] none, .field none "athing" [] none,
                        .field none "bthing" [] none]),
               .field none "id" [] none]))
    = .field none "votes"
        [⟨"a", .enumV "a"⟩, ⟨"a", .enumV "b"⟩, ⟨"capital", .enumV "fossil"⟩]
        (some [.field none "id" [] none,
               .field none "voter"
                 [⟨"a", .enumV "b"⟩, ⟨"a", .enumV "c"⟩, ⟨"b", .enumV "a"⟩, ⟨"c", .enumV "b"⟩]
                 (some [.field none "athing" [] none, .field none "bthing" [] none,
                        .field none "cthing" [] none])]) := rfl

/-- **C4**: for every document `D`, `sort (sort D) = sort D`: the
canonical-ordering pass (stable sort of arguments, object-value fields
and selections by alias-stripped serialized text) is idempotent. -/
theorem sort_idempotent (d : Document) : sort (sort d) = sort d := by
  unfold sort
  refine congrArg Document.mk ?_
  rw [List.map_map]
  exact List.map_congr_left fun df _ => by
    simp only [Function.comp_apply, sortDefinition_idem]

/-! ## `PruneArgumentsVisitor` (tools.py `prune_query_arguments`)

`enter_field` builds `arguments_dict` keyed by argument name, keeping
only the first argument seen for each name, and replaces the field's
argument list by the dict's values (insertion order).  The dict is
modelled by threading the list of already-seen names. -/

/-- The argument scan of `PruneArgumentsVisitor.enter_field`. -/
def pruneArgumentsGo (seen : List String) : List Argument → List Argument
  | [] => []
  | a :: rest =>
    if a.name ∈ seen then pruneArgumentsGo seen rest
    else a :: pruneArgumentsGo (a.name :: seen) rest

/-- Argument-list pruning performed on each field. -/
def pruneArguments (args : List Argument) : List Argument := pruneArgumentsGo [] args

mutual

/-- `PruneArgumentsVisitor` applied through a selection subtree
(`enter_field` fires on every field node; values are untouched). -/
def pruneSelection : Selection → Selection
  | .field alias_ name args ss? => .field alias_ name (pruneArguments args) (pruneSelOpt ss?)
  | .fragmentSpread name => .fragmentSpread name
  | .inlineFragment tc ss => .inlineFragment tc (pruneSelList ss)

def pruneSelOpt : Option (List Selection) → Option (List Selection)
  | none => none
  | some ss => some (pruneSelList ss)

def pruneSelList : List Selection → List Selection
  | [] => []
  | s :: ss => pruneSelection s :: pruneSelList ss

end

/-- `prune_query_arguments` (tools.py):
`gql.language.visit(query, PruneArgumentsVisitor())`. -/
def prune_query_arguments (d : Document) : Document :=
  ⟨d.definitions.map fun df =>
    match df with
    | .operation op => .operation { op with selectionSet := pruneSelList op.selectionSet }
    | .fragment n tc ss => .fragment n tc (pruneSelList ss)⟩

/-- Specified behavior of pruning (§4.4, stated from the spec's words,
for comparison with the implementation): keep the first argument of each
distinct name and drop every later argument sharing that name. -/
def firstWins : List Argument → List Argument
  | [] => []
  | a :: rest => a :: firstWins (rest.filter fun b => b.name ≠ a.name)
termination_by l => l.length
decreasing_by
  simp only [List.length_cons]
  exact Nat.lt_succ_of_le (List.length_filter_le _ _)

/-- No two arguments of the list share a name. -/
def uniqueArgNames : List Argument → Bool
  | [] => true
  | a :: rest => !(rest.any fun b => b.name == a.name) && uniqueArgNames rest

mutual

/-- Every field of the subtree has pairwise distinct argument names. -/
def selUniqueArgs : Selection → Bool
  | .field _ _ args ss? => uniqueArgNames args && selOptUniqueArgs ss?
  | .fragmentSpread _ => true
  | .inlineFragment _ ss => selListUniqueArgs ss

def selOptUniqueArgs : Option (List Selection) → Bool
  | none => true
  | some ss => selListUniqueArgs ss

def selListUniqueArgs : List Selection → Bool
  | [] => true
  | s :: ss => selUniqueArgs s && selListUniqueArgs ss

end

/-- Every field of the document has pairwise distinct argument names. -/
def docUniqueArgs (d : Document) : Bool :=
  d.definitions.all fun df =>
    match df with
    | .operation op => selListUniqueArgs op.selectionSet
    | .fragment _ _ ss => selListUniqueArgs ss

theorem pruneArgumentsGo_eq_firstWins (args : List Argument) :
    ∀ seen, pruneArgumentsGo seen args = firstWins (args.filter fun b => b.name ∉ seen) := by
  induction args with
  | nil => intro seen; simp [pruneArgumentsGo, firstWins]
  | cons a rest ih =>
    intro seen
    by_cases h : a.name ∈ seen
    · rw [show pruneArgumentsGo seen (a :: rest) = pruneArgumentsGo seen rest by
        simp [pruneArgumentsGo, h]]
      rw [show ((a :: rest).filter fun b => b.name ∉ seen)
            = rest.filter fun b => b.name ∉ seen by simp [List.filter_cons, h]]
      exact ih seen
    · rw [show pruneArgumentsGo seen (a :: rest)
            = a :: pruneArgumentsGo (a.name :: seen) rest by simp [pruneArgumentsGo, h]]
      rw [show ((a :: rest).filter fun b => b.name ∉ seen)
            = a :: (rest.filter fun b => b.name ∉ seen) by simp [List.filter_cons, h]]
      rw [show firstWins (a :: (rest.filter fun b => b.name ∉ seen))
            = a :: firstWins ((rest.filter fun b => b.name ∉ seen).filter
                fun b => b.name ≠ a.name) by rw [firstWins]]
      rw [ih (a.name :: seen), List.filter_filter]
      refine congrArg _ (congrArg _ (List.filter_congr fun b _ => ?_))
      by_cases h1 : b.name = a.name <;> by_cases h2 : b.name ∈ seen <;>
        simp [h1, h2]

theorem pruneArgumentsGo_unique (args : List Argument) :
    ∀ seen, uniqueArgNames (pruneArgumentsGo seen args) = true
      ∧ ∀ b ∈ pruneArgumentsGo seen args, b.name ∉ seen := by
  induction args with
  | nil => intro seen; simp [pruneArgumentsGo, uniqueArgNames]
  | cons a rest ih =>
    intro seen
    by_cases h : a.name ∈ seen
    · simp only [pruneArgumentsGo, if_pos h]
      exact ih seen
    · simp only [pruneArgumentsGo, if_neg h]
      obtain ⟨hu, hs⟩ := ih (a.name :: seen)
      refine ⟨?_, ?_⟩
      · simp only [uniqueArgNames, Bool.and_eq_true]
        refine ⟨?_, hu⟩
        simp only [Bool.not_eq_eq_eq_not, Bool.not_true, List.any_eq_false]
        intro b hb
        have := hs b hb
        simp only [List.mem_cons, not_or] at this
        simp only [beq_iff_eq]
        exact this.1
      · intro b hb
        rcases List.mem_cons.mp hb with rfl | hb'
        · exact h
        · exact fun hmem => (hs b hb') (List.mem_cons_of_mem _ hmem)

theorem pruneArguments_eq_firstWins (args : List Argument) :
    pruneArguments args = firstWins args := by
  rw [pruneArguments, pruneArgumentsGo_eq_firstWins args []]
  refine congrArg _ (List.filter_eq_self.mpr ?_)
  intro b _
  simp

theorem pruneArguments_unique (args : List Argument) :
    uniqueArgNames (pruneArguments args) = true :=
  (pruneArgumentsGo_unique args []).1

mutual

theorem pruneSelection_unique (s : Selection) : selUniqueArgs (pruneSelection s) = true := by
  match s with
  | .field alias_ name args ss? =>
    simp only [pruneSelection, selUniqueArgs, Bool.and_eq_true]
    exact ⟨pruneArguments_unique args, pruneSelOpt_unique ss?⟩
  | .fragmentSpread name => rfl
  | .inlineFragment tc ss =>
    simp only [pruneSelection, selUniqueArgs]
    exact pruneSelList_unique ss
termination_by sizeOf s

theorem pruneSelOpt_unique (ss? : Option (List Selection)) :
    selOptUniqueArgs (pruneSelOpt ss?) = true := by
  match ss? with
  | none => rfl
  | some ss =>
    simp only [pruneSelOpt, selOptUniqueArgs]
    exact pruneSelList_unique ss
termination_by sizeOf ss?

theorem pruneSelList_unique (ss : List Selection) :
    selListUniqueArgs (pruneSelList ss) = true := by
  match ss with
  | [] => rfl
  | s :: rest =>
    simp only [pruneSelList, selListUniqueArgs, Bool.and_eq_true]
    exact ⟨pruneSelection_unique s, pruneSelList_unique rest⟩
termination_by sizeOf ss

end

/-- **C6**: pruning keeps exactly the first argument of each distinct
name, in first-occurrence order (`pruneArguments = firstWins`); hence no
field of a pruned document has two arguments with the same name; and the
spec's example `(a:1, b:2, a:3) ↦ (a:1, b:2)` holds. -/
theorem prune_query_arguments_first_wins :
    (∀ args : List Argument, pruneArguments args = firstWins args)
    ∧ (∀ d : Document, docUniqueArgs (prune_query_arguments d) = true)
    ∧ pruneArguments [⟨"a", .intV "1"⟩, ⟨"b", .intV "2"⟩, ⟨"a", .intV "3"⟩]
        = [⟨"a", .intV "1"⟩, ⟨"b", .intV "2"⟩] := by
  refine ⟨pruneArguments_eq_firstWins, ?_, rfl⟩
  intro d
  rw [prune_query_arguments, docUniqueArgs]
  simp only [List.all_eq_true, List.mem_map]
  rintro df ⟨df0, _, rfl⟩
  match df0 with
  | .operation op => exact pruneSelList_unique op.selectionSet
  | .fragment n tc ss => exact pruneSelList_unique ss

/-! ## `extract_root_queries` (RootQuerySplitter)

The Python function is a generator; iterating it raises `RuntimeError`
on a second query/subscription operation or on a non-field top-level
selection.  The model collects the yields eagerly into an
`Except`-valued list: an error anywhere means the caller gets no result
list (matching "fatal, no partial output"). -/

/-- Is this definition a top-level operation of kind query or
subscription (the kinds counted by `extract_root_queries`)? -/
def isQuerySubOp : Definition → Bool
  | .operation op => decide (op.operation = .query ∨ op.operation = .subscription)
  | .fragment _ _ _ => false

/-- Number of top-level query/subscription operations. -/
def countQueryOps (defs : List Definition) : Nat :=
  (defs.filter isQuerySubOp).length

/-- The fresh single-field document built for one top-level field:
one unnamed operation of the source kind, the source operation's
variable definitions (deep-copied: the identity on immutable values),
and only this field, with the alias optionally cleared. -/
def splitDocument (op : OperationDefinition) (remAliases : Bool)
    (alias_ : Option String) (name : String) (args : List Argument)
    (ss? : Option (List Selection)) : Document :=
  ⟨[.operation ⟨op.operation, none, op.variableDefinitions,
     [.field (if remAliases then none else alias_) name args ss?]⟩]⟩

/-- The inner loop over the query operation's top-level selections. -/
def extractRootSelections (op : OperationDefinition) (remAliases : Bool) :
    List Selection → Except String (List Document)
  | [] => .ok []
  | .field alias_ name args ss? :: rest => do
      let docs ← extractRootSelections op remAliases rest
      .ok (splitDocument op remAliases alias_ name args ss? :: docs)
  | .fragmentSpread _ :: _ => .error "Unexpected type(selection), expected FieldNode"
  | .inlineFragment _ _ :: _ => .error "Unexpected type(selection), expected FieldNode"

/-- The outer loop over definitions, threading
`query_operations_count`. -/
def extractRootDefinitions (remAliases : Bool) :
    Nat → List Definition → Except String (List Document)
  | _, [] => .ok []
  | count, .operation op :: rest =>
      if op.operation = .query ∨ op.operation = .subscription then
        if count > 0 then .error "Document contains more than one query node"
        else do
          let docs ← extractRootSelections op remAliases op.selectionSet
          let more ← extractRootDefinitions remAliases (count + 1) rest
          .ok (docs ++ more)
      else extractRootDefinitions remAliases count rest
  | count, .fragment _ _ _ :: rest => extractRootDefinitions remAliases count rest

/-- `extract_root_queries` (tools.py). -/
def extract_root_queries (query : Document) (remAliases : Bool := true) :
    Except String (List Document) :=
  extractRootDefinitions remAliases 0 query.definitions

theorem extractRootDefinitions_error_of_pos (b : Bool) :
    ∀ (defs : List Definition) (count : Nat), 1 ≤ count →
      1 ≤ countQueryOps defs →
      ∃ e, extractRootDefinitions b count defs = .error e := by
  intro defs
  induction defs with
  | nil => intro count _ h2; simp [countQueryOps] at h2
  | cons df rest ih =>
    intro count h1 h2
    match df with
    | .operation op =>
      by_cases hq : op.operation = .query ∨ op.operation = .subscription
      · refine ⟨"Document contains more than one query node", ?_⟩
        simp only [extractRootDefinitions, if_pos hq]
        rw [if_pos (Nat.lt_of_lt_of_le Nat.zero_lt_one h1)]
      · have : countQueryOps rest = countQueryOps (Definition.operation op :: rest) := by
          simp [countQueryOps, List.filter_cons, isQuerySubOp, hq]
        simp only [extractRootDefinitions, if_neg hq]
        exact ih count h1 (by rw [this]; exact h2)
    | .fragment n tc ss =>
      have : countQueryOps rest = countQueryOps (Definition.fragment n tc ss :: rest) := by
        simp [countQueryOps, List.filter_cons, isQuerySubOp]
      simp only [extractRootDefinitions]
      exact ih count h1 (by rw [this]; exact h2)

theorem extractRootDefinitions_error_of_two (b : Bool) :
    ∀ (defs : List Definition) (count : Nat), 2 ≤ countQueryOps defs →
      ∃ e, extractRootDefinitions b count defs = .error e := by
  intro defs
  induction defs with
  | nil => intro count h2; simp [countQueryOps] at h2
  | cons df rest ih =>
    intro count h2
    match df with
    | .operation op =>
      by_cases hq : op.operation = .query ∨ op.operation = .subscription
      · by_cases hc : count > 0
        · refine ⟨"Document contains more than one query node", ?_⟩
          simp only [extractRootDefinitions, if_pos hq, if_pos hc]
        · have hrest : 1 ≤ countQueryOps rest := by
            have : countQueryOps (Definition.operation op :: rest)
                = countQueryOps rest + 1 := by
              simp [countQueryOps, List.filter_cons, isQuerySubOp, hq]
            omega
          simp only [extractRootDefinitions, if_pos hq, if_neg hc]
          cases hsel : extractRootSelections op b op.selectionSet with
          | error e => exact ⟨e, rfl⟩
          | ok docs =>
            obtain ⟨e, he⟩ := extractRootDefinitions_error_of_pos b rest (count + 1)
              (Nat.le_add_left 1 count) hrest
            exact ⟨e, by rw [show (do
              let docs ← Except.ok docs
              let more ← extractRootDefinitions b (count + 1) rest
              Except.ok (docs ++ more) : Except String (List Document))
                = extractRootDefinitions b (count + 1) rest >>= fun more =>
                    Except.ok (docs ++ more) from rfl, he]; rfl⟩
      · have : countQueryOps rest = countQueryOps (Definition.operation op :: rest) := by
          simp [countQueryOps, List.filter_cons, isQuerySubOp, hq]
        simp only [extractRootDefinitions, if_neg hq]
        exact ih count (by rw [this]; exact h2)
    | .fragment n tc ss =>
      have : countQueryOps rest = countQueryOps (Definition.fragment n tc ss :: rest) := by
        simp [countQueryOps, List.filter_cons, isQuerySubOp]
      simp only [extractRootDefinitions]
      exact ih count (by rw [this]; exact h2)

/-- **C5**: a document with more than one top-level query/subscription
operation (mutations not counted) makes `extract_root_queries` fail with
a fatal error; in the eager `Except` model the caller receives an error
and no list of output documents. -/
theorem extract_root_queries_two_ops_error (d : Document) (b : Bool)
    (h : 2 ≤ countQueryOps d.definitions) :
    ∃ e, extract_root_queries d b = .error e :=
  extractRootDefinitions_error_of_two b d.definitions 0 h

/-- Witness for C5 at a concrete two-query document. -/
theorem extract_root_queries_two_ops_error_witness :
    ∃ e, extract_root_queries
      ⟨[.operation ⟨.query, none, [], [.field none "a" [] none]⟩,
        .operation ⟨.query, none, [], [.field none "b" [] none]⟩]⟩ true = .error e :=
  extract_root_queries_two_ops_error _ true (by decide)

/-- Is the selection a field node? -/
def Selection.isField : Selection → Bool
  | .field _ _ _ _ => true
  | .fragmentSpread _ => false
  | .inlineFragment _ _ => false

/-- The field name contributed by one top-level selection. -/
def topFieldName : Selection → List String
  | .field _ n _ _ => [n]
  | .fragmentSpread _ => []
  | .inlineFragment _ _ => []

/-- Top-level field names of a selection list, in order. -/
def selsFieldNames : List Selection → List String
  | [] => []
  | s :: ss => topFieldName s ++ selsFieldNames ss

/-- Top-level field names of a definition list, in order. -/
def defsFieldNames : List Definition → List String
  | [] => []
  | .operation op :: rest => selsFieldNames op.selectionSet ++ defsFieldNames rest
  | .fragment _ _ _ :: rest => defsFieldNames rest

/-- Concatenated top-level field names of a document list, in order. -/
def docsFieldNames : List Document → List String
  | [] => []
  | d :: ds => defsFieldNames d.definitions ++ docsFieldNames ds

theorem extractRootSelections_fields (op : OperationDefinition) (b : Bool) :
    ∀ sels : List Selection, (∀ s ∈ sels, s.isField = true) →
      ∃ docs, extractRootSelections op b sels = .ok docs
        ∧ docs.length = sels.length
        ∧ (∀ doc ∈ docs, ∃ al n args ss?, doc = splitDocument op b al n args ss?)
        ∧ docsFieldNames docs = selsFieldNames sels := by
  intro sels
  induction sels with
  | nil => intro _; exact ⟨[], rfl, rfl, by simp, rfl⟩
  | cons s rest ih =>
    intro h
    obtain ⟨docs, hdocs, hlen, hshape, hnames⟩ :=
      ih (fun t ht => h t (List.mem_cons_of_mem _ ht))
    cases s with
    | field al n args ss? =>
      refine ⟨splitDocument op b al n args ss? :: docs, ?_, ?_, ?_, ?_⟩
      · simp only [extractRootSelections]
        rw [hdocs]
        rfl
      · simp [hlen]
      · intro doc hdoc
        rcases List.mem_cons.mp hdoc with rfl | hdoc'
        · exact ⟨al, n, args, ss?, rfl⟩
        · exact hshape doc hdoc'
      · cases b <;>
          simp [docsFieldNames, splitDocument, defsFieldNames, selsFieldNames,
            topFieldName, hnames]
    | fragmentSpread n =>
      exact absurd (h _ (List.mem_cons_self _ _)) (by simp [Selection.isField])
    | inlineFragment tc ss =>
      exact absurd (h _ (List.mem_cons_self _ _)) (by simp [Selection.isField])

/-- **C7**: splitting a document holding a single query operation whose
top-level selections are all fields yields one single-field document per
selection; each output document consists of one unnamed operation of the
source kind carrying the source's variable definitions verbatim, and the
top-level field names of the outputs, concatenated in yield order,
reproduce the original top-level field name order. -/
theorem extract_root_queries_split (d : Document) (op : OperationDefinition)
    (hdefs : d.definitions = [.operation op]) (hkind : op.operation = .query)
    (hfields : ∀ s ∈ op.selectionSet, s.isField = true) :
    ∃ docs, extract_root_queries d true = .ok docs
      ∧ docs.length = op.selectionSet.length
      ∧ (∀ doc ∈ docs, ∃ al n args ss?, doc = splitDocument op true al n args ss?)
      ∧ docsFieldNames docs = selsFieldNames op.selectionSet := by
  obtain ⟨docs, hdocs, hlen, hshape, hnames⟩ :=
    extractRootSelections_fields op true op.selectionSet hfields
  refine ⟨docs, ?_, hlen, hshape, hnames⟩
  rw [extract_root_queries, hdefs]
  simp only [extractRootDefinitions, if_pos (Or.inl hkind)]
  rw [if_neg (by omega), hdocs]
  show Except.ok (docs ++ []) = Except.ok docs
  rw [List.append_nil]

/-- Witness for C7: a two-field query with variable definitions splits
into two documents carrying those definitions. -/
theorem extract_root_queries_split_witness :
    ∃ docs, extract_root_queries
        ⟨[.operation ⟨.query, some "QueryName",
          [⟨"var1", "sometype", none⟩, ⟨"var2", "someothertype", none⟩],
          [.field (some "alias1") "token" [⟨"something", .strV "sdgsdfg"⟩] (some [.field none "id" [] none]),
           .field none "pair" [⟨"first", .intV "13"⟩] (some [.field none "id" [] none])]⟩]⟩ true
      = .ok docs
      ∧ docs.length = 2
      ∧ (∀ doc ∈ docs, ∃ al n args ss?, doc = splitDocument
          ⟨.query, some "QueryName",
            [⟨"var1", "sometype", none⟩, ⟨"var2", "someothertype", none⟩],
            [.field (some "alias1") "token" [⟨"something", .strV "sdgsdfg"⟩] (some [.field none "id" [] none]),
             .field none "pair" [⟨"first", .intV "13"⟩] (some [.field none "id" [] none])]⟩
          true al n args ss?)
      ∧ docsFieldNames docs = ["token", "pair"] :=
  extract_root_queries_split _ _ rfl rfl (by decide)

/-- Every definition is a mutation operation or a fragment definition. -/
theorem extractRootDefinitions_mutations_only (b : Bool) :
    ∀ (defs : List Definition) (count : Nat),
      (∀ df ∈ defs, isQuerySubOp df = false) →
      extractRootDefinitions b count defs = .ok [] := by
  intro defs
  induction defs with
  | nil => intro count _; rfl
  | cons df rest ih =>
    intro count h
    match df with
    | .operation op =>
      have hq : ¬(op.operation = .query ∨ op.operation = .subscription) := by
        have := h _ (List.mem_cons_self _ _)
        simpa [isQuerySubOp] using this
      simp only [extractRootDefinitions, if_neg hq]
      exact ih count (fun t ht => h t (List.mem_cons_of_mem _ ht))
    | .fragment n tc ss =>
      simp only [extractRootDefinitions]
      exact ih count (fun t ht => h t (List.mem_cons_of_mem _ ht))

/-- **C10**: a document whose top-level operations are all mutations (or
that has no operation definitions at all) makes `extract_root_queries`
yield the empty sequence with no error: mutations are skipped and never
contribute output. -/
theorem extract_root_queries_mutations_empty (d : Document) (b : Bool)
    (h : ∀ df ∈ d.definitions, isQuerySubOp df = false) :
    extract_root_queries d b = .ok [] :=
  extractRootDefinitions_mutations_only b d.definitions 0 h

/-- Witness for C10 at a concrete mutation-plus-fragment document. -/
theorem extract_root_queries_mutations_empty_witness :
    extract_root_queries
      ⟨[.operation ⟨.mutation, some "M", [], [.field none "doIt" [] none]⟩,
        .fragment "f" "T" [.field none "x" [] none]]⟩ true = .ok [] :=
  extract_root_queries_mutations_empty _ true (by decide)

/-! ## `substitute_fragments` (FragmentInliner)

Phase (a): `RemoveFragmentsVisitor` collects `name → selections` into a
dict (a later definition of the same name overwrites an earlier one) and
removes every fragment definition.  Phase (b):
`SubstituteFragmentsVisitor.enter_selection_set` replaces each direct
fragment spread of the set by the referenced fragment's selections,
then the visit descends into the (possibly spliced-in) children.
A spread of an undefined name raises `KeyError`; a cyclic or very deep
fragment chain exhausts the interpreter's recursion limit.  Both aborts
are modelled by `none`; the visit's recursion depth is modelled by
`fuel` (every produced document is produced under any sufficiently
large fuel). -/

/-- Phase (a) collection: the fragment definitions in document order. -/
def fragmentPairs : List Definition → List (String × List Selection)
  | [] => []
  | .operation _ :: rest => fragmentPairs rest
  | .fragment n _ ss :: rest => (n, ss) :: fragmentPairs rest

/-- Dict lookup with "last definition wins" (Python dict overwrite). -/
def lookupLast : List (String × List Selection) → String → Option (List Selection)
  | [], _ => none
  | (m, ss) :: rest, n =>
    match lookupLast rest n with
    | some r => some r
    | none => if m == n then some ss else none

/-- One `enter_selection_set` splice: every direct fragment spread is
replaced in place by the referenced fragment's selections. -/
def spliceSelections (frags : List (String × List Selection)) :
    List Selection → Option (List Selection)
  | [] => some []
  | .fragmentSpread n :: rest => do
      let body ← lookupLast frags n
      let rest' ← spliceSelections frags rest
      some (body ++ rest')
  | s :: rest => do
      let rest' ← spliceSelections frags rest
      some (s :: rest')

mutual

/-- `SubstituteFragmentsVisitor` on one selection set: splice at this
level, then visit the resulting children. -/
def substituteSelections (frags : List (String × List Selection)) :
    Nat → List Selection → Option (List Selection)
  | 0, _ => none
  | fuel + 1, ss => do
      let spliced ← spliceSelections frags ss
      substituteEach frags fuel spliced

/-- The visit of the (already spliced) children of a selection set:
descend into nested selection sets; residual spreads have no
selection-set hook and stay as they are. -/
def substituteEach (frags : List (String × List Selection)) :
    Nat → List Selection → Option (List Selection)
  | 0, _ => none
  | _ + 1, [] => some []
  | fuel + 1, .field al n args none :: rest => do
      let rest' ← substituteEach frags fuel rest
      some (.field al n args none :: rest')
  | fuel + 1, .field al n args (some cs) :: rest => do
      let cs' ← substituteSelections frags fuel cs
      let rest' ← substituteEach frags fuel rest
      some (.field al n args (some cs') :: rest')
  | fuel + 1, .fragmentSpread n :: rest => do
      let rest' ← substituteEach frags fuel rest
      some (.fragmentSpread n :: rest')
  | fuel + 1, .inlineFragment tc cs :: rest => do
      let cs' ← substituteSelections frags fuel cs
      let rest' ← substituteEach frags fuel rest
      some (.inlineFragment tc cs' :: rest')

end

/-- Phase (a) removal composed with phase (b) over the definitions:
fragment definitions are dropped, operations have their selection sets
substituted. -/
def substituteDefs (frags : List (String × List Selection)) (fuel : Nat) :
    List Definition → Option (List Definition)
  | [] => some []
  | .operation op :: rest => do
      let ss' ← substituteSelections frags fuel op.selectionSet
      let rest' ← substituteDefs frags fuel rest
      some (.operation { op with selectionSet := ss' } :: rest')
  | .fragment _ _ _ :: rest => substituteDefs frags fuel rest

/-- `substitute_fragments` (tools.py). -/
def substitute_fragments (fuel : Nat) (query : Document) : Option Document := do
  let frags := fragmentPairs query.definitions
  let defs' ← substituteDefs frags fuel query.definitions
  some ⟨defs'⟩

mutual

/-- Number of fragment-spread nodes in a selection subtree. -/
def selCountSpreads : Selection → Nat
  | .field _ _ _ none => 0
  | .field _ _ _ (some cs) => selListCountSpreads cs
  | .fragmentSpread _ => 1
  | .inlineFragment _ cs => selListCountSpreads cs

def selListCountSpreads : List Selection → Nat
  | [] => 0
  | s :: ss => selCountSpreads s + selListCountSpreads ss

end

/-- Number of fragment-spread nodes under a definition list. -/
def defsCountSpreads : List Definition → Nat
  | [] => 0
  | .operation op :: rest => selListCountSpreads op.selectionSet + defsCountSpreads rest
  | .fragment _ _ ss :: rest => selListCountSpreads ss + defsCountSpreads rest

/-- Number of fragment definitions in a definition list. -/
def defsCountFragDefs : List Definition → Nat
  | [] => 0
  | .operation _ :: rest => defsCountFragDefs rest
  | .fragment _ _ _ :: rest => 1 + defsCountFragDefs rest

/-- Number of fragment-spread nodes in a document. -/
def docCountSpreads (d : Document) : Nat := defsCountSpreads d.definitions

/-- Number of fragment definitions in a document. -/
def docCountFragDefs (d : Document) : Nat := defsCountFragDefs d.definitions

/-- Number of spreads sitting directly (not nested) in a selection list. -/
def directSpreads : List Selection → Nat
  | [] => 0
  | .fragmentSpread _ :: rest => 1 + directSpreads rest
  | _ :: rest => directSpreads rest

theorem directSpreads_le_count :
    ∀ ss : List Selection, directSpreads ss ≤ selListCountSpreads ss := by
  intro ss
  induction ss with
  | nil => simp [directSpreads, selListCountSpreads]
  | cons s rest ih =>
    match s with
    | .fragmentSpread n =>
      simp only [directSpreads, selListCountSpreads, selCountSpreads]
      omega
    | .field al n args none =>
      simp only [directSpreads, selListCountSpreads]
      omega
    | .field al n args (some cs) =>
      simp only [directSpreads, selListCountSpreads]
      omega
    | .inlineFragment tc cs =>
      simp only [directSpreads, selListCountSpreads]
      omega

theorem directSpreads_append :
    ∀ a b : List Selection, directSpreads (a ++ b) = directSpreads a + directSpreads b := by
  intro a b
  induction a with
  | nil => simp [directSpreads]
  | cons s rest ih =>
    match s with
    | .fragmentSpread n =>
      simp only [List.cons_append, directSpreads, List.append_eq, ih]; omega
    | .field al n args none =>
      simp only [List.cons_append, directSpreads, List.append_eq, ih]
    | .field al n args (some cs) =>
      simp only [List.cons_append, directSpreads, List.append_eq, ih]
    | .inlineFragment tc cs =>
      simp only [List.cons_append, directSpreads, List.append_eq, ih]

theorem lookupLast_mem (n : String) (body : List Selection) :
    ∀ frags, lookupLast frags n = some body → ∃ m, (m, body) ∈ frags := by
  intro frags
  induction frags with
  | nil => intro h; simp [lookupLast] at h
  | cons p rest ih =>
    intro h
    obtain ⟨m, ss⟩ := p
    simp only [lookupLast] at h
    cases hrest : lookupLast rest n with
    | some r =>
      rw [hrest] at h
      simp only [Option.some.injEq] at h
      subst h
      obtain ⟨m', hm'⟩ := ih hrest
      exact ⟨m', List.mem_cons_of_mem _ hm'⟩
    | none =>
      rw [hrest] at h
      by_cases hm : (m == n) = true
      · rw [if_pos hm] at h
        simp only [Option.some.injEq] at h
        subst h
        exact ⟨m, List.mem_cons_self _ _⟩
      · rw [if_neg hm] at h
        simp at h

theorem spliceSelections_no_direct (frags : List (String × List Selection))
    (hbodies : ∀ p ∈ frags, selListCountSpreads p.2 = 0) :
    ∀ ss ss', spliceSelections frags ss = some ss' → directSpreads ss' = 0 := by
  intro ss
  induction ss with
  | nil =>
    intro ss' h
    simp only [spliceSelections, Option.some.injEq] at h
    subst h
    rfl
  | cons s rest ih =>
    intro ss' h
    match s with
    | .fragmentSpread n =>
      simp only [spliceSelections, Option.bind_eq_bind, Option.bind_eq_some,
        Option.some.injEq] at h
      obtain ⟨body, hb, rest', hr, h⟩ := h
      subst h
      have hbody : selListCountSpreads body = 0 := by
        obtain ⟨m, hm⟩ := lookupLast_mem n body frags hb
        exact hbodies (m, body) hm
      have h1 : directSpreads body = 0 :=
        Nat.le_antisymm (hbody ▸ directSpreads_le_count body) (Nat.zero_le _)
      have h2 : directSpreads rest' = 0 := ih rest' hr
      rw [directSpreads_append, h1, h2]
    | .field al n args ss? =>
      simp only [spliceSelections, Option.bind_eq_bind, Option.bind_eq_some,
        Option.some.injEq] at h
      obtain ⟨rest', hr, h⟩ := h
      subst h
      simp only [directSpreads]
      exact ih rest' hr
    | .inlineFragment tc cs =>
      simp only [spliceSelections, Option.bind_eq_bind, Option.bind_eq_some,
        Option.some.injEq] at h
      obtain ⟨rest', hr, h⟩ := h
      subst h
      simp only [directSpreads]
      exact ih rest' hr

mutual

theorem substituteSelections_no_spreads (frags : List (String × List Selection))
    (hbodies : ∀ p ∈ frags, selListCountSpreads p.2 = 0) (fuel : Nat) :
    ∀ ss ss', substituteSelections frags fuel ss = some ss' →
      selListCountSpreads ss' = 0 := by
  match fuel with
  | 0 => intro ss ss' h; simp [substituteSelections] at h
  | fuel + 1 =>
    intro ss ss' h
    simp only [substituteSelections, Option.bind_eq_bind, Option.bind_eq_some] at h
    obtain ⟨spliced, hsplice, heach⟩ := h
    exact substituteEach_no_spreads frags hbodies fuel spliced ss'
      (spliceSelections_no_direct frags hbodies ss spliced hsplice) heach

theorem substituteEach_no_spreads (frags : List (String × List Selection))
    (hbodies : ∀ p ∈ frags, selListCountSpreads p.2 = 0) (fuel : Nat) :
    ∀ ss ss', directSpreads ss = 0 → substituteEach frags fuel ss = some ss' →
      selListCountSpreads ss' = 0 := by
  match fuel with
  | 0 => intro ss ss' _ h; simp [substituteEach] at h
  | fuel + 1 =>
    intro ss ss' hdirect h
    match ss with
    | [] =>
      simp only [substituteEach, Option.some.injEq] at h
      subst h
      rfl
    | .field al n args none :: rest =>
      simp only [substituteEach, Option.bind_eq_bind, Option.bind_eq_some,
        Option.some.injEq] at h
      obtain ⟨rest', hr, h⟩ := h
      subst h
      simp only [selListCountSpreads, selCountSpreads]
      have : directSpreads rest = 0 := by
        simpa [directSpreads] using hdirect
      rw [substituteEach_no_spreads frags hbodies fuel rest rest' this hr]
    | .field al n args (some cs) :: rest =>
      simp only [substituteEach, Option.bind_eq_bind, Option.bind_eq_some,
        Option.some.injEq] at h
      obtain ⟨cs', hcs, rest', hr, h⟩ := h
      subst h
      simp only [selListCountSpreads, selCountSpreads]
      have hd : directSpreads rest = 0 := by
        simpa [directSpreads] using hdirect
      rw [substituteSelections_no_spreads frags hbodies fuel cs cs' hcs,
        substituteEach_no_spreads frags hbodies fuel rest rest' hd hr]
    | .fragmentSpread n :: rest =>
      simp [directSpreads] at hdirect
    | .inlineFragment tc cs :: rest =>
      simp only [substituteEach, Option.bind_eq_bind, Option.bind_eq_some,
        Option.some.injEq] at h
      obtain ⟨cs', hcs, rest', hr, h⟩ := h
      subst h
      simp only [selListCountSpreads, selCountSpreads]
      have hd : directSpreads rest = 0 := by
        simpa [directSpreads] using hdirect
      rw [substituteSelections_no_spreads frags hbodies fuel cs cs' hcs,
        substituteEach_no_spreads frags hbodies fuel rest rest' hd hr]

end

theorem substituteDefs_no_fragdefs (frags : List (String × List Selection)) (fuel : Nat) :
    ∀ defs defs', substituteDefs frags fuel defs = some defs' →
      defsCountFragDefs defs' = 0 := by
  intro defs
  induction defs with
  | nil =>
    intro defs' h
    simp only [substituteDefs, Option.some.injEq] at h
    subst h
    rfl
  | cons df rest ih =>
    intro defs' h
    match df with
    | .operation op =>
      simp only [substituteDefs, Option.bind_eq_bind, Option.bind_eq_some,
        Option.some.injEq] at h
      obtain ⟨ss', _, rest', hr, h⟩ := h
      subst h
      simp only [defsCountFragDefs]
      exact ih rest' hr
    | .fragment n tc ss =>
      simp only [substituteDefs] at h
      exact ih defs' h

theorem substituteDefs_no_spreads (frags : List (String × List Selection))
    (hbodies : ∀ p ∈ frags, selListCountSpreads p.2 = 0) (fuel : Nat) :
    ∀ defs defs', substituteDefs frags fuel defs = some defs' →
      defsCountSpreads defs' = 0 := by
  intro defs
  induction defs with
  | nil =>
    intro defs' h
    simp only [substituteDefs, Option.some.injEq] at h
    subst h
    rfl
  | cons df rest ih =>
    intro defs' h
    match df with
    | .operation op =>
      simp only [substituteDefs, Option.bind_eq_bind, Option.bind_eq_some,
        Option.some.injEq] at h
      obtain ⟨ss', hss, rest', hr, h⟩ := h
      subst h
      simp only [defsCountSpreads]
      rw [substituteSelections_no_spreads frags hbodies fuel op.selectionSet ss' hss,
        ih rest' hr]
    | .fragment n tc ss =>
      simp only [substituteDefs] at h
      exact ih defs' h

/-- The concrete input refuting C3 as stated: fragment `f1` itself
spreads `f2`, and the single substitution pass leaves `...f2` behind. -/
def nestedFragDoc : Document :=
  ⟨[.operation ⟨.query, none, [],
      [.field none "a" [] (some [.fragmentSpread "f1"])]⟩,
    .fragment "f1" "Food" [.field none "x" [] none, .fragmentSpread "f2"],
    .fragment "f2" "Food" [.field none "y" [] none]]⟩

/-- Counterexample to C3 as stated: on `nestedFragDoc`,
`substitute_fragments` succeeds but its output still contains one
`FragmentSpread` node (`...f2`, spliced in from `f1`'s body). -/
theorem substitute_fragments_nested_spread_counterexample :
    substitute_fragments 100 nestedFragDoc
      = some ⟨[.operation ⟨.query, none, [],
          [.field none "a" []
            (some [.field none "x" [] none, .fragmentSpread "f2"])]⟩]⟩
    ∧ docCountSpreads ⟨[.operation ⟨.query, none, [],
          [.field none "a" []
            (some [.field none "x" [] none, .fragmentSpread "f2"])]⟩]⟩ = 1 :=
  ⟨rfl, rfl⟩

/-- **C3 (amended)**: the document returned by `substitute_fragments`
contains zero `FragmentDefinition` nodes; *provided no fragment body
contains a fragment spread*, it also contains zero `FragmentSpread`
nodes; and at each former spread position the spliced-in selections are
the selections of the referenced fragment's body (for duplicate
fragment names, the last definition encountered). -/
theorem substitute_fragments_inlines :
    (∀ fuel (d d' : Document), substitute_fragments fuel d = some d' →
      docCountFragDefs d' = 0)
    ∧ (∀ fuel (d d' : Document), substitute_fragments fuel d = some d' →
        (∀ p ∈ fragmentPairs d.definitions, selListCountSpreads p.2 = 0) →
        docCountSpreads d' = 0)
    ∧ (∀ frags (n : String) body rest, lookupLast frags n = some body →
        spliceSelections frags (.fragmentSpread n :: rest)
          = (spliceSelections frags rest).map (fun r => body ++ r)) := by
  refine ⟨?_, ?_, ?_⟩
  · intro fuel d d' h
    simp only [substitute_fragments, Option.bind_eq_bind, Option.bind_eq_some,
      Option.some.injEq] at h
    obtain ⟨defs', hdefs, h⟩ := h
    subst h
    exact substituteDefs_no_fragdefs _ fuel d.definitions defs' hdefs
  · intro fuel d d' h hbodies
    simp only [substitute_fragments, Option.bind_eq_bind, Option.bind_eq_some,
      Option.some.injEq] at h
    obtain ⟨defs', hdefs, h⟩ := h
    subst h
    exact substituteDefs_no_spreads _ hbodies fuel d.definitions defs' hdefs
  · intro frags n body rest h
    simp only [spliceSelections, Option.bind_eq_bind, h, Option.some_bind]
    cases spliceSelections frags rest <;> rfl

/-- A document whose single fragment body is spread-free (shape of
`tests/tools/test_substitute_fragments`). -/
def flatFragDoc : Document :=
  ⟨[.operation ⟨.query, none, [],
      [.field none "potato" [⟨"first", .intV "1"⟩]
        (some [.field none "banana" [] none, .fragmentSpread "fragment1"])]⟩,
    .fragment "fragment1" "Food"
      [.field none "something" [] none, .field none "somethingelse" [] none]]⟩

/-- The document `substitute_fragments` produces from `flatFragDoc`. -/
def flatFragDocResult : Document :=
  ⟨[.operation ⟨.query, none, [],
      [.field none "potato" [⟨"first", .intV "1"⟩]
        (some [.field none "banana" [] none, .field none "something" [] none,
               .field none "somethingelse" [] none])]⟩]⟩

/-- Witness for the amended C3: on `flatFragDoc` the output has no
fragment definitions and no spreads. -/
theorem substitute_fragments_inlines_witness :
    substitute_fragments 100 flatFragDoc = some flatFragDocResult
    ∧ docCountFragDefs flatFragDocResult = 0
    ∧ docCountSpreads flatFragDocResult = 0 :=
  ⟨rfl,
   substitute_fragments_inlines.1 100 flatFragDoc flatFragDocResult rfl,
   substitute_fragments_inlines.2.1 100 flatFragDoc flatFragDocResult rfl (by decide)⟩

/-! ## `FactorizeVisitor.merge_nodes` (factorize)

`merge_nodes` builds `args` from `node1`'s attributes; sequence-valued
attributes (the argument list) are concatenated into a fresh list, but
for the `selection_set` attribute it executes
`args[attr_name].selections = selections1 + selections2`, an in-place
assignment on `node1`'s own `SelectionSetNode` object — an object that
still belongs to the caller's input document when `node1` is the
first-seen field of a merge group.  The model makes the effect explicit:
it returns the merged node together with the post-call contents of
`node1`'s selection-set object. -/

/-- `FieldNode` as a standalone record (the node shape `merge_nodes`
is invoked on by `enter_selection_set`). -/
structure Field where
  alias_ : Option String
  name : String
  arguments : List Argument
  selectionSet : Option (List Selection)

/-- `FactorizeVisitor.merge_nodes`, with Python's in-place update of
`node1.selection_set.selections` rendered as an explicit second result:
the new contents of `node1`'s selection-set object (`none` when `node1`
has no selection set — in which case `node2`'s selections are dropped
and nothing is mutated). -/
def merge_nodes (node1 node2 : Field) : Field × Option (List Selection) :=
  let mergedArguments := node1.arguments ++ node2.arguments
  match node1.selectionSet with
  | some sels1 =>
    let newSels := sels1 ++ (node2.selectionSet.getD [])
    (⟨node1.alias_, node1.name, mergedArguments, some newSels⟩, some newSels)
  | none => (⟨node1.alias_, node1.name, mergedArguments, none⟩, none)

/-- First `pairs` field of the `factorize` docstring example. -/
def pairsField1 : Field :=
  ⟨none, "pairs", [⟨"first", .intV "10"⟩], some [.field none "id" [] none]⟩

/-- Second `pairs` field of the `factorize` docstring example. -/
def pairsField2 : Field :=
  ⟨none, "pairs", [⟨"skip", .intV "2"⟩], some [.field none "name" [] none]⟩

/-- **C2, evaluated at the failing input**: merging the two `pairs`
fields of the `factorize` docstring example rewrites the contents of
the first (input-owned) field's selection-set object from `[id]` to
`[id, name]`, and the merged output node aliases that same mutated
object — the input document is not left structurally unchanged. -/
theorem merge_nodes_mutates_input :
    (merge_nodes pairsField1 pairsField2).2
      = some [.field none "id" [] none, .field none "name" [] none]
    ∧ pairsField1.selectionSet = some [.field none "id" [] none]
    ∧ (merge_nodes pairsField1 pairsField2).1.selectionSet
      = (merge_nodes pairsField1 pairsField2).2
    ∧ (merge_nodes pairsField1 pairsField2).2 ≠ pairsField1.selectionSet := by
  refine ⟨rfl, rfl, rfl, ?_⟩
  intro h
  have := congrArg (fun o => (Option.getD o []).length) h
  simp [merge_nodes, pairsField1, pairsField2] at this

/-! ## `remove_unknown_arguments` (UnknownArgumentFilter)

`gql.validate(schema, query, rules=[KnownArgumentNamesRule])` is part of
`graphql-core`, outside this repository.  Modelled from the spec: the
external validator is an oracle that reports, for a field name and an
argument name, whether the argument is unknown to the schema at that
field; its diagnostics identify the offending argument nodes, and
`RemoveUnknownArgumentsVisitor.enter_argument` removes exactly those
nodes, leaving everything else (values included) untouched. -/

mutual

/-- `RemoveUnknownArgumentsVisitor` through a selection subtree, the
flagged arguments being those of the oracle. -/
def removeUnknownSel (unknown : String → String → Bool) : Selection → Selection
  | .field al n args ss? =>
    .field al n (args.filter fun a => !(unknown n a.name)) (removeUnknownSelOpt unknown ss?)
  | .fragmentSpread n => .fragmentSpread n
  | .inlineFragment tc ss => .inlineFragment tc (removeUnknownSelList unknown ss)

def removeUnknownSelOpt (unknown : String → String → Bool) :
    Option (List Selection) → Option (List Selection)
  | none => none
  | some ss => some (removeUnknownSelList unknown ss)

def removeUnknownSelList (unknown : String → String → Bool) :
    List Selection → List Selection
  | [] => []
  | s :: ss => removeUnknownSel unknown s :: removeUnknownSelList unknown ss

end

/-- `remove_unknown_arguments` (tools.py), the validator supplied as an
oracle. -/
def remove_unknown_arguments (unknown : String → String → Bool) (d : Document) : Document :=
  ⟨d.definitions.map fun df =>
    match df with
    | .operation op => .operation { op with selectionSet := removeUnknownSelList unknown op.selectionSet }
    | .fragment n tc ss => .fragment n tc (removeUnknownSelList unknown ss)⟩

mutual

/-- All (field name, argument list) pairs of a selection subtree, in
document order. -/
def fieldsOfSel : Selection → List (String × List Argument)
  | .field _ n args none => [(n, args)]
  | .field _ n args (some cs) => (n, args) :: fieldsOfSelList cs
  | .fragmentSpread _ => []
  | .inlineFragment _ cs => fieldsOfSelList cs

def fieldsOfSelList : List Selection → List (String × List Argument)
  | [] => []
  | s :: ss => fieldsOfSel s ++ fieldsOfSelList ss

end

/-- All (field name, argument list) pairs of a document. -/
def docFields (d : Document) : List (String × List Argument) :=
  d.definitions.foldr (fun df acc =>
    (match df with
     | .operation op => fieldsOfSelList op.selectionSet
     | .fragment _ _ ss => fieldsOfSelList ss) ++ acc) []

mutual

theorem fieldsOfSel_removeUnknown (unknown : String → String → Bool) (s : Selection) :
    fieldsOfSel (removeUnknownSel unknown s)
      = (fieldsOfSel s).map fun p => (p.1, p.2.filter fun a => !(unknown p.1 a.name)) := by
  match s with
  | .field al n args none => rfl
  | .field al n args (some cs) =>
    simp only [removeUnknownSel, removeUnknownSelOpt, fieldsOfSel, List.map_cons]
    rw [fieldsOfSelList_removeUnknown unknown cs]
  | .fragmentSpread n => rfl
  | .inlineFragment tc cs =>
    simp only [removeUnknownSel, fieldsOfSel]
    exact fieldsOfSelList_removeUnknown unknown cs
termination_by sizeOf s

theorem fieldsOfSelList_removeUnknown (unknown : String → String → Bool)
    (ss : List Selection) :
    fieldsOfSelList (removeUnknownSelList unknown ss)
      = (fieldsOfSelList ss).map fun p => (p.1, p.2.filter fun a => !(unknown p.1 a.name)) := by
  match ss with
  | [] => rfl
  | s :: rest =>
    simp only [removeUnknownSelList, fieldsOfSelList, List.map_append]
    rw [fieldsOfSel_removeUnknown unknown s, fieldsOfSelList_removeUnknown unknown rest]
termination_by sizeOf ss

end

/-- **C9**: the filter removes exactly the oracle-flagged argument
nodes and nothing else — every field of the output carries its input
argument list filtered by the oracle on names alone; for an oracle
(modelled from the spec's schema) lacking `garlic` on `potato`,
`potato(banana:1, garlic:2)` filters to `potato(banana:1)`; and an
argument whose name is known is never removed, regardless of its
value. -/
theorem remove_unknown_arguments_exact :
    (∀ (unknown : String → String → Bool) (d : Document),
      docFields (remove_unknown_arguments unknown d)
        = (docFields d).map fun p => (p.1, p.2.filter fun a => !(unknown p.1 a.name)))
    ∧ remove_unknown_arguments (fun f a => f == "potato" && a == "garlic")
        ⟨[.operation ⟨.query, none, [],
          [.field none "potato" [⟨"banana", .intV "1"⟩, ⟨"garlic", .intV "2"⟩] none]⟩]⟩
      = ⟨[.operation ⟨.query, none, [],
          [.field none "potato" [⟨"banana", .intV "1"⟩] none]⟩]⟩
    ∧ (∀ (unknown : String → String → Bool) (f : String) (args : List Argument)
        (a : Argument), a ∈ args → unknown f a.name = false →
        a ∈ args.filter fun b => !(unknown f b.name)) := by
  refine ⟨?_, rfl, ?_⟩
  · intro unknown d
    unfold docFields remove_unknown_arguments
    induction d.definitions with
    | nil => rfl
    | cons df rest ih =>
      simp only [List.map_cons, List.foldr_cons, List.map_append] at ih ⊢
      rw [ih]
      match df with
      | .operation op =>
        simp only [List.map_append]
        rw [fieldsOfSelList_removeUnknown unknown op.selectionSet]
      | .fragment n tc ss =>
        simp only [List.map_append]
        rw [fieldsOfSelList_removeUnknown unknown ss]
  · intro unknown f args a ha hknown
    exact List.mem_filter.mpr ⟨ha, by simp [hknown]⟩

/-- Witness for C9 (its last conjunct has hypotheses): the `banana`
argument, known to the oracle, survives filtering on the `potato`
field. -/
theorem remove_unknown_arguments_exact_witness :
    (⟨"banana", .intV "1"⟩ : Argument) ∈
      ([⟨"banana", .intV "1"⟩, ⟨"garlic", .intV "2"⟩] : List Argument).filter
        fun b => !((fun f a => f == "potato" && a == "garlic") "potato" b.name) :=
  remove_unknown_arguments_exact.2.2 (fun f a => f == "potato" && a == "garlic")
    "potato" [⟨"banana", .intV "1"⟩, ⟨"garlic", .intV "2"⟩] ⟨"banana", .intV "1"⟩
    (by simp) (by decide)

/-! ## `RemoveValuesVisitor` (tools.py `remove_values`)

The visitor's `enter` hook fires on every node.  Nodes anywhere under
the variable-definitions region are skipped (the `collapse(ancestors)`
check).  Every `ValueNode` that is not an `ObjectValueNode` is a
candidate: with no ignore set it is always extracted; with an ignore
set, the *immediate parent's* `name` attribute is consulted — the
parent is the `ArgumentNode` for an argument's value, the
`ObjectFieldNode` for an object field's value, and the `ListValueNode`
(which has **no** `name` attribute, an `AttributeError`) for a list
element.  An extracted literal is recorded through
`value_from_ast_untyped`; an extracted pre-existing variable is looked
up in `existing_variables` (`KeyError` if absent) and recorded as
`str(value)`.  The node is then replaced by the placeholder variable
`$_{counter}` and the counter is incremented.  Errors are modelled with
`Except`; the JSON form of `existing_variables` is modelled as the
already-parsed mapping. -/

/-- Python values, as stored in `removed_arguments`.  Python floats are
carried as their literal text (no float arithmetic occurs). -/
inductive PyValue where
  | pyInt (n : Int)
  | pyFloat (s : String)
  | pyStr (s : String)
  | pyBool (b : Bool)
  | pyNone
  | pyList (vs : List PyValue)
  | pyDict (fields : List (String × PyValue))

/-- Decimal digits accumulator (`int()` on a literal's text). -/
def parseNatChars : List Char → Nat → Nat
  | [], acc => acc
  | c :: cs, acc => parseNatChars cs (acc * 10 + (c.toNat - '0'.toNat))

/-- Python `int()` on a GraphQL int literal's text. -/
def parseIntLit (s : String) : Int :=
  match s.data with
  | '-' :: cs => - (parseNatChars cs 0 : Int)
  | cs => (parseNatChars cs 0 : Int)

mutual

/-- `gql.utilities.value_from_ast_untyped`: literals in canonical
untyped form; lists and objects recurse; a variable (reachable only
inside an extracted list, where no variable map is passed) becomes
`None`. -/
def value_from_ast_untyped : Value → PyValue
  | .intV s => .pyInt (parseIntLit s)
  | .floatV s => .pyFloat s
  | .strV s => .pyStr s
  | .boolV b => .pyBool b
  | .nullV => .pyNone
  | .enumV s => .pyStr s
  | .listV vs => .pyList (valueListUntyped vs)
  | .objV fs => .pyDict (objFieldsUntyped fs)
  | .varV _ => .pyNone

def valueListUntyped : List Value → List PyValue
  | [] => []
  | v :: vs => value_from_ast_untyped v :: valueListUntyped vs

def objFieldsUntyped : List (String × Value) → List (String × PyValue)
  | [] => []
  | f :: fs => (f.1, value_from_ast_untyped f.2) :: objFieldsUntyped fs

end

mutual

/-- Python `repr()` of a stored value.  `repr(float)` is approximated
by the carried literal text. -/
def pyRepr : PyValue → String
  | .pyStr s => "'" ++ s ++ "'"
  | .pyInt n => if n < 0 then "-" ++ toString n.natAbs else toString n.natAbs
  | .pyFloat s => s
  | .pyBool b => if b then "True" else "False"
  | .pyNone => "None"
  | .pyList vs => "[" ++ pyReprList vs ++ "]"
  | .pyDict fs => "\x7b" ++ pyReprDict fs ++ "\x7d"

def pyReprList : List PyValue → String
  | [] => ""
  | [v] => pyRepr v
  | v :: vs => pyRepr v ++ ", " ++ pyReprList vs

def pyReprDict : List (String × PyValue) → String
  | [] => ""
  | [(n, v)] => "'" ++ n ++ "': " ++ pyRepr v
  | (n, v) :: fs => "'" ++ n ++ "': " ++ pyRepr v ++ ", " ++ pyReprDict fs

end

/-- Python `str()`: the string itself for strings, `repr` otherwise
(containers display their elements with `repr`). -/
def pyToStr : PyValue → String
  | .pyStr s => s
  | v => pyRepr v

/-- The visitor's per-call mutable attributes
(`removed_arguments`, `_placeholder_counter`). -/
structure RVState where
  removed_arguments : List PyValue
  placeholder_counter : Nat

/-- The visitor's configuration (`ignored_arguments`,
`existing_variables` already parsed from JSON when supplied as text). -/
structure RVCtx where
  ignored_arguments : Option (List String)
  existing_variables : List (String × PyValue)

/-- The value recorded for an extracted node: a pre-existing variable
resolves through `existing_variables` and is recorded as `str(value)`
(`KeyError` when absent); any other value node is recorded untyped. -/
def recordValue (ctx : RVCtx) : Value → Except String PyValue
  | .varV n =>
    match ctx.existing_variables.lookup n with
    | some pv => .ok (.pyStr (pyToStr pv))
    | none => .error ("KeyError: " ++ n)
  | v => .ok (value_from_ast_untyped v)

/-- Extraction of one (non-object) value node: record the value, mint
the placeholder `$_{counter}`, bump the counter. -/
def extractValue (ctx : RVCtx) (v : Value) (st : RVState) :
    Except String (Value × RVState) := do
  let recorded ← recordValue ctx v
  .ok (.varV ("_" ++ toString st.placeholder_counter),
    ⟨st.removed_arguments ++ [recorded], st.placeholder_counter + 1⟩)

/-- The extraction test
`self.ignored_arguments is None or parent.name.value not in self.ignored_arguments`
with Python's evaluation order: with no ignore set the parent's name is
never read; otherwise reading `parent.name` on a parent without a
`name` attribute (a `ListValueNode`) raises `AttributeError`. -/
def rvDecide (ctx : RVCtx) (parentName : Option String) : Except String Bool :=
  match ctx.ignored_arguments with
  | none => .ok true
  | some ign =>
    match parentName with
    | none => .error "AttributeError: node has no attribute name"
    | some nm => .ok (!(ign.contains nm))

mutual

/-- The `enter` hook on a value node whose parent (if any) carries
`parentName` as its `name` attribute.  Object values are containers:
traversed into, never extracted.  Every other value node is extracted
when `rvDecide` allows; otherwise the hook is IDLE — the node stays
and its children (the elements of a list value) are still visited. -/
def rvValue (ctx : RVCtx) (parentName : Option String) (v : Value) (st : RVState) :
    Except String (Value × RVState) :=
  match v with
  | .objV fs => do
      let (fs', st') ← rvObjFields ctx fs st
      .ok (.objV fs', st')
  | .listV vs => do
      let ex ← rvDecide ctx parentName
      if ex then extractValue ctx (.listV vs) st
      else do
        let (vs', st') ← rvValueList ctx vs st
        .ok (.listV vs', st')
  | v => do
      let ex ← rvDecide ctx parentName
      if ex then extractValue ctx v st else .ok (v, st)

def rvValueList (ctx : RVCtx) (vs : List Value) (st : RVState) :
    Except String (List Value × RVState) :=
  match vs with
  | [] => .ok ([], st)
  | v :: rest => do
      -- a list element's parent is the ListValueNode, which has no name
      let (v', st1) ← rvValue ctx none v st
      let (rest', st2) ← rvValueList ctx rest st1
      .ok (v' :: rest', st2)

def rvObjFields (ctx : RVCtx) (fs : List (String × Value)) (st : RVState) :
    Except String (List (String × Value) × RVState) :=
  match fs with
  | [] => .ok ([], st)
  | (n, v) :: rest => do
      -- an object field value's parent is the ObjectFieldNode named n
      let (v', st1) ← rvValue ctx (some n) v st
      let (rest', st2) ← rvObjFields ctx rest st1
      .ok ((n, v') :: rest', st2)

end

/-- Arguments of a field, in order; an argument value's parent is the
`ArgumentNode`, whose name is consulted against the ignore set. -/
def rvArguments (ctx : RVCtx) (args : List Argument) (st : RVState) :
    Except String (List Argument × RVState) :=
  match args with
  | [] => .ok ([], st)
  | a :: rest => do
      let (v', st1) ← rvValue ctx (some a.name) a.value st
      let (rest', st2) ← rvArguments ctx rest st1
      .ok (⟨a.name, v'⟩ :: rest', st2)

mutual

/-- The visit through selections (`FieldNode.keys` orders arguments
before the nested selection set). -/
def rvSelection (ctx : RVCtx) (s : Selection) (st : RVState) :
    Except String (Selection × RVState) :=
  match s with
  | .field al n args ss? => do
      let (args', st1) ← rvArguments ctx args st
      let (ss', st2) ← rvSelOpt ctx ss? st1
      .ok (.field al n args' ss', st2)
  | .fragmentSpread n => .ok (.fragmentSpread n, st)
  | .inlineFragment tc ss => do
      let (ss', st') ← rvSelList ctx ss st
      .ok (.inlineFragment tc ss', st')

def rvSelOpt (ctx : RVCtx) (ss? : Option (List Selection)) (st : RVState) :
    Except String (Option (List Selection) × RVState) :=
  match ss? with
  | none => .ok (none, st)
  | some ss => do
      let (ss', st') ← rvSelList ctx ss st
      .ok (some ss', st')

def rvSelList (ctx : RVCtx) (ss : List Selection) (st : RVState) :
    Except String (List Selection × RVState) :=
  match ss with
  | [] => .ok ([], st)
  | s :: rest => do
      let (s', st1) ← rvSelection ctx s st
      let (rest', st2) ← rvSelList ctx rest st1
      .ok (s' :: rest', st2)

end

/-- The visit over top-level definitions.  Everything under the
variable-definitions region is skipped (every node there has a
`VariableDefinitionNode` among `collapse(ancestors)`), so the variable
definitions pass through unchanged; fragment definitions are visited
like operations. -/
def rvDefinitions (ctx : RVCtx) (defs : List Definition) (st : RVState) :
    Except String (List Definition × RVState) :=
  match defs with
  | [] => .ok ([], st)
  | .operation op :: rest => do
      let (ss', st1) ← rvSelList ctx op.selectionSet st
      let (rest', st2) ← rvDefinitions ctx rest st1
      .ok (.operation { op with selectionSet := ss' } :: rest', st2)
  | .fragment n tc ss :: rest => do
      let (ss', st1) ← rvSelList ctx ss st
      let (rest', st2) ← rvDefinitions ctx rest st1
      .ok (.fragment n tc ss' :: rest', st2)

/-- `remove_values` (tools.py): run the visitor from a fresh state and
return the rewritten document with the ordered extracted values. -/
def remove_values (query : Document) (ignored_arguments : Option (List String))
    (existing_variables : List (String × PyValue)) :
    Except String (Document × List PyValue) := do
  let ctx : RVCtx := ⟨ignored_arguments, existing_variables⟩
  let (defs', st) ← rvDefinitions ctx query.definitions ⟨[], 0⟩
  .ok (⟨defs'⟩, st.removed_arguments)

/-! ### Counter/list alignment in `remove_values` -/

theorem exceptBind_ok {ε α β : Type} (x : Except ε α) (f : α → Except ε β) (b : β) :
    x >>= f = .ok b ↔ ∃ a, x = .ok a ∧ f a = .ok b := by
  cases x with
  | error e =>
    constructor
    · intro h
      exact absurd h (by simp [Bind.bind, Except.bind])
    · rintro ⟨a, ha, _⟩
      exact absurd ha (by simp)
  | ok a =>
    constructor
    · intro h
      exact ⟨a, rfl, h⟩
    · rintro ⟨a', ha, hf⟩
      simp only [Except.ok.injEq] at ha
      rw [← ha] at hf
      exact hf

theorem extractValue_aligned (ctx : RVCtx) (v : Value) (st : RVState)
    (out : Value × RVState) (h : extractValue ctx v st = .ok out)
    (hst : st.placeholder_counter = st.removed_arguments.length) :
    out.2.placeholder_counter = out.2.removed_arguments.length
    ∧ ∃ r, out.2.removed_arguments = st.removed_arguments ++ [r] := by
  rw [extractValue, exceptBind_ok] at h
  obtain ⟨r, _, h⟩ := h
  simp only [Except.ok.injEq] at h
  rw [← h]
  refine ⟨?_, r, rfl⟩
  simp [hst]

theorem rvScalarStep_aligned (ctx : RVCtx) (pn : Option String) (v : Value)
    (st : RVState) (out : Value × RVState)
    (h : (do
      let ex ← rvDecide ctx pn
      if ex then extractValue ctx v st else .ok (v, st)) = .ok out)
    (hst : st.placeholder_counter = st.removed_arguments.length) :
    out.2.placeholder_counter = out.2.removed_arguments.length := by
  rw [exceptBind_ok] at h
  obtain ⟨ex, _, h⟩ := h
  cases ex with
  | true =>
    rw [if_pos rfl] at h
    exact (extractValue_aligned ctx v st out h hst).1
  | false =>
    rw [if_neg Bool.false_ne_true] at h
    simp only [Except.ok.injEq] at h
    rw [← h]
    exact hst

mutual

theorem rvValue_aligned (ctx : RVCtx) (pn : Option String) (v : Value) (st : RVState)
    (out : Value × RVState) (h : rvValue ctx pn v st = .ok out)
    (hst : st.placeholder_counter = st.removed_arguments.length) :
    out.2.placeholder_counter = out.2.removed_arguments.length := by
  match v with
  | .objV fs =>
    rw [rvValue, exceptBind_ok] at h
    obtain ⟨⟨fs', st'⟩, h1, h2⟩ := h
    simp only [Except.ok.injEq] at h2
    rw [← h2]
    exact rvObjFields_aligned ctx fs st (fs', st') h1 hst
  | .listV vs =>
    rw [rvValue, exceptBind_ok] at h
    obtain ⟨ex, _, h⟩ := h
    cases ex with
    | true =>
      rw [if_pos rfl] at h
      exact (extractValue_aligned ctx _ st out h hst).1
    | false =>
      rw [if_neg Bool.false_ne_true, exceptBind_ok] at h
      obtain ⟨⟨vs', st'⟩, h1, h2⟩ := h
      simp only [Except.ok.injEq] at h2
      rw [← h2]
      exact rvValueList_aligned ctx vs st (vs', st') h1 hst
  | .intV s => exact rvScalarStep_aligned ctx pn _ st out (by simp only [rvValue] at h; exact h) hst
  | .floatV s => exact rvScalarStep_aligned ctx pn _ st out (by simp only [rvValue] at h; exact h) hst
  | .strV s => exact rvScalarStep_aligned ctx pn _ st out (by simp only [rvValue] at h; exact h) hst
  | .boolV b => exact rvScalarStep_aligned ctx pn _ st out (by simp only [rvValue] at h; exact h) hst
  | .nullV => exact rvScalarStep_aligned ctx pn _ st out (by simp only [rvValue] at h; exact h) hst
  | .enumV s => exact rvScalarStep_aligned ctx pn _ st out (by simp only [rvValue] at h; exact h) hst
  | .varV n => exact rvScalarStep_aligned ctx pn _ st out (by simp only [rvValue] at h; exact h) hst
termination_by (sizeOf v, 1)

theorem rvValueList_aligned (ctx : RVCtx) (vs : List Value) (st : RVState)
    (out : List Value × RVState) (h : rvValueList ctx vs st = .ok out)
    (hst : st.placeholder_counter = st.removed_arguments.length) :
    out.2.placeholder_counter = out.2.removed_arguments.length := by
  match vs with
  | [] =>
    rw [rvValueList] at h
    simp only [Except.ok.injEq] at h
    rw [← h]
    exact hst
  | v :: rest =>
    rw [rvValueList, exceptBind_ok] at h
    obtain ⟨⟨v', st1⟩, h1, h⟩ := h
    rw [exceptBind_ok] at h
    obtain ⟨⟨rest', st2⟩, h2, h3⟩ := h
    simp only [Except.ok.injEq] at h3
    rw [← h3]
    exact rvValueList_aligned ctx rest st1 (rest', st2) h2
      (rvValue_aligned ctx none v st (v', st1) h1 hst)
termination_by (sizeOf vs, 0)

theorem rvObjFields_aligned (ctx : RVCtx) (fs : List (String × Value)) (st : RVState)
    (out : List (String × Value) × RVState) (h : rvObjFields ctx fs st = .ok out)
    (hst : st.placeholder_counter = st.removed_arguments.length) :
    out.2.placeholder_counter = out.2.removed_arguments.length := by
  match fs with
  | [] =>
    rw [rvObjFields] at h
    simp only [Except.ok.injEq] at h
    rw [← h]
    exact hst
  | (n, v) :: rest =>
    rw [rvObjFields, exceptBind_ok] at h
    obtain ⟨⟨v', st1⟩, h1, h⟩ := h
    rw [exceptBind_ok] at h
    obtain ⟨⟨rest', st2⟩, h2, h3⟩ := h
    simp only [Except.ok.injEq] at h3
    rw [← h3]
    exact rvObjFields_aligned ctx rest st1 (rest', st2) h2
      (rvValue_aligned ctx (some n) v st (v', st1) h1 hst)
termination_by (sizeOf fs, 0)

end

theorem rvArguments_aligned (ctx : RVCtx) (args : List Argument) :
    ∀ (st : RVState) (out : List Argument × RVState),
      rvArguments ctx args st = .ok out →
      st.placeholder_counter = st.removed_arguments.length →
      out.2.placeholder_counter = out.2.removed_arguments.length := by
  induction args with
  | nil =>
    intro st out h hst
    rw [rvArguments] at h
    simp only [Except.ok.injEq] at h
    rw [← h]
    exact hst
  | cons a rest ih =>
    intro st out h hst
    rw [rvArguments, exceptBind_ok] at h
    obtain ⟨⟨v', st1⟩, h1, h⟩ := h
    rw [exceptBind_ok] at h
    obtain ⟨⟨rest', st2⟩, h2, h3⟩ := h
    simp only [Except.ok.injEq] at h3
    rw [← h3]
    exact ih st1 (rest', st2) h2
      (rvValue_aligned ctx (some a.name) a.value st (v', st1) h1 hst)

mutual

theorem rvSelection_aligned (ctx : RVCtx) (s : Selection) (st : RVState)
    (out : Selection × RVState) (h : rvSelection ctx s st = .ok out)
    (hst : st.placeholder_counter = st.removed_arguments.length) :
    out.2.placeholder_counter = out.2.removed_arguments.length := by
  match s with
  | .field al n args ss? =>
    rw [rvSelection, exceptBind_ok] at h
    obtain ⟨⟨args', st1⟩, h1, h⟩ := h
    rw [exceptBind_ok] at h
    obtain ⟨⟨ss', st2⟩, h2, h3⟩ := h
    simp only [Except.ok.injEq] at h3
    rw [← h3]
    exact rvSelOpt_aligned ctx ss? st1 (ss', st2) h2
      (rvArguments_aligned ctx args st (args', st1) h1 hst)
  | .fragmentSpread n =>
    rw [rvSelection] at h
    simp only [Except.ok.injEq] at h
    rw [← h]
    exact hst
  | .inlineFragment tc ss =>
    rw [rvSelection, exceptBind_ok] at h
    obtain ⟨⟨ss', st'⟩, h1, h2⟩ := h
    simp only [Except.ok.injEq] at h2
    rw [← h2]
    exact rvSelList_aligned ctx ss st (ss', st') h1 hst
termination_by (sizeOf s, 0)

theorem rvSelOpt_aligned (ctx : RVCtx) (ss? : Option (List Selection)) (st : RVState)
    (out : Option (List Selection) × RVState) (h : rvSelOpt ctx ss? st = .ok out)
    (hst : st.placeholder_counter = st.removed_arguments.length) :
    out.2.placeholder_counter = out.2.removed_arguments.length := by
  match ss? with
  | none =>
    rw [rvSelOpt] at h
    simp only [Except.ok.injEq] at h
    rw [← h]
    exact hst
  | some ss =>
    rw [rvSelOpt, exceptBind_ok] at h
    obtain ⟨⟨ss', st'⟩, h1, h2⟩ := h
    simp only [Except.ok.injEq] at h2
    rw [← h2]
    exact rvSelList_aligned ctx ss st (ss', st') h1 hst
termination_by (sizeOf ss?, 0)

theorem rvSelList_aligned (ctx : RVCtx) (ss : List Selection) (st : RVState)
    (out : List Selection × RVState) (h : rvSelList ctx ss st = .ok out)
    (hst : st.placeholder_counter = st.removed_arguments.length) :
    out.2.placeholder_counter = out.2.removed_arguments.length := by
  match ss with
  | [] =>
    rw [rvSelList] at h
    simp only [Except.ok.injEq] at h
    rw [← h]
    exact hst
  | s :: rest =>
    rw [rvSelList, exceptBind_ok] at h
    obtain ⟨⟨s', st1⟩, h1, h⟩ := h
    rw [exceptBind_ok] at h
    obtain ⟨⟨rest', st2⟩, h2, h3⟩ := h
    simp only [Except.ok.injEq] at h3
    rw [← h3]
    exact rvSelList_aligned ctx rest st1 (rest', st2) h2
      (rvSelection_aligned ctx s st (s', st1) h1 hst)
termination_by (sizeOf ss, 0)

end

/-- The variable definitions carried by a top-level definition. -/
def defVardefs : Definition → List VariableDefinition
  | .operation op => op.variableDefinitions
  | .fragment _ _ _ => []

theorem rvDefinitions_aligned_vardefs (ctx : RVCtx) (defs : List Definition) :
    ∀ (st : RVState) (out : List Definition × RVState),
      rvDefinitions ctx defs st = .ok out →
      st.placeholder_counter = st.removed_arguments.length →
      (out.2.placeholder_counter = out.2.removed_arguments.length
        ∧ out.1.map defVardefs = defs.map defVardefs) := by
  induction defs with
  | nil =>
    intro st out h hst
    rw [rvDefinitions] at h
    simp only [Except.ok.injEq] at h
    rw [← h]
    exact ⟨hst, rfl⟩
  | cons df rest ih =>
    intro st out h hst
    match df with
    | .operation op =>
      rw [rvDefinitions, exceptBind_ok] at h
      obtain ⟨⟨ss', st1⟩, h1, h⟩ := h
      rw [exceptBind_ok] at h
      obtain ⟨⟨rest', st2⟩, h2, h3⟩ := h
      simp only [Except.ok.injEq] at h3
      rw [← h3]
      have hs1 := rvSelList_aligned ctx op.selectionSet st (ss', st1) h1 hst
      obtain ⟨ha, hm⟩ := ih st1 (rest', st2) h2 hs1
      exact ⟨ha, by simp [defVardefs, hm]⟩
    | .fragment n tc ss =>
      rw [rvDefinitions, exceptBind_ok] at h
      obtain ⟨⟨ss', st1⟩, h1, h⟩ := h
      rw [exceptBind_ok] at h
      obtain ⟨⟨rest', st2⟩, h2, h3⟩ := h
      simp only [Except.ok.injEq] at h3
      rw [← h3]
      have hs1 := rvSelList_aligned ctx ss st (ss', st1) h1 hst
      obtain ⟨ha, hm⟩ := ih st1 (rest', st2) h2 hs1
      exact ⟨ha, by simp [defVardefs, hm]⟩

/-- Is the value node a container (`ObjectValueNode` or
`ListValueNode`)?  Containers are the two kinds whose children the
visitor can still reach after the ignore decision. -/
def Value.isContainer : Value → Bool
  | .objV _ => true
  | .listV _ => true
  | _ => false

theorem extractValue_indexes (ctx : RVCtx) (v : Value) (st : RVState) (r : PyValue)
    (hr : recordValue ctx v = .ok r)
    (hst : st.placeholder_counter = st.removed_arguments.length) :
    extractValue ctx v st
      = .ok (.varV ("_" ++ toString st.removed_arguments.length),
          ⟨st.removed_arguments ++ [r], st.removed_arguments.length + 1⟩) := by
  rw [extractValue]
  rw [show (do
    let recorded ← recordValue ctx v
    Except.ok (Value.varV ("_" ++ toString st.placeholder_counter),
      (⟨st.removed_arguments ++ [recorded], st.placeholder_counter + 1⟩ : RVState))
      : Except String (Value × RVState))
    = recordValue ctx v >>= fun recorded =>
        Except.ok (.varV ("_" ++ toString st.placeholder_counter),
          ⟨st.removed_arguments ++ [recorded], st.placeholder_counter + 1⟩) from rfl]
  rw [hr, hst]
  rfl

theorem rvValue_ignored_scalar (ign : List String) (exv : List (String × PyValue))
    (nm : String) (v : Value) (st : RVState) (hmem : nm ∈ ign)
    (hv : v.isContainer = false) :
    rvValue ⟨some ign, exv⟩ (some nm) v st = .ok (v, st) := by
  have hc : ign.contains nm = true := by
    simp [List.contains, List.elem_iff]
    exact hmem
  match v with
  | .objV fs => simp [Value.isContainer] at hv
  | .listV vs => simp [Value.isContainer] at hv
  | .intV s =>
    simp [rvValue, rvDecide, hc, Bind.bind, Except.bind]
    exact fun h' => absurd hmem h'
  | .floatV s =>
    simp [rvValue, rvDecide, hc, Bind.bind, Except.bind]
    exact fun h' => absurd hmem h'
  | .strV s =>
    simp [rvValue, rvDecide, hc, Bind.bind, Except.bind]
    exact fun h' => absurd hmem h'
  | .boolV b =>
    simp [rvValue, rvDecide, hc, Bind.bind, Except.bind]
    exact fun h' => absurd hmem h'
  | .nullV =>
    simp [rvValue, rvDecide, hc, Bind.bind, Except.bind]
    exact fun h' => absurd hmem h'
  | .enumV s =>
    simp [rvValue, rvDecide, hc, Bind.bind, Except.bind]
    exact fun h' => absurd hmem h'
  | .varV n =>
    simp [rvValue, rvDecide, hc, Bind.bind, Except.bind]
    exact fun h' => absurd hmem h'

/-- Counterexample to C8 as stated: with `ignored_arguments = ["a"]`,
the ignored argument `a`'s object value is still traversed — its inner
field `b`'s value is extracted and replaced, so the ignored argument's
value does *not* stay untouched (the ignore test consults only the
immediate parent's name). -/
theorem remove_values_ignored_argument_counterexample :
    remove_values
        ⟨[.operation ⟨.query, none, [],
          [.field none "f" [⟨"a", .objV [("b", .intV "1")]⟩] none]⟩]⟩
        (some ["a"]) []
      = .ok (⟨[.operation ⟨.query, none, [],
          [.field none "f" [⟨"a", .objV [("b", .varV "_0")]⟩] none]⟩]⟩,
          [.pyInt 1])
    ∧ (Value.objV [("b", .varV "_0")] ≠ .objV [("b", .intV "1")]) := by
  refine ⟨rfl, ?_⟩
  intro hcontra
  simp at hcontra

/-- **C8 (amended)**: one shared counter starting at 0 numbers the
placeholders, and it always equals the length of the extracted-value
list, so the value at index `i` is the one replaced by `$_i`
(`extractValue` mints `$_{length}` and appends at position `length`);
variable definitions (default values included) pass through untouched;
and a non-container value whose *immediate parent's* name (argument or
object field) is in the ignore set is neither extracted nor replaced —
inner values of an ignored argument's object value are still processed
under their own field names, as the counterexample shows. -/
theorem remove_values_placeholders :
    (∀ (ctx : RVCtx) (defs : List Definition) (st : RVState)
        (out : List Definition × RVState),
      rvDefinitions ctx defs st = .ok out →
      st.placeholder_counter = st.removed_arguments.length →
      out.2.placeholder_counter = out.2.removed_arguments.length)
    ∧ (∀ (ctx : RVCtx) (v : Value) (st : RVState) (r : PyValue),
        recordValue ctx v = .ok r →
        st.placeholder_counter = st.removed_arguments.length →
        extractValue ctx v st
          = .ok (.varV ("_" ++ toString st.removed_arguments.length),
              ⟨st.removed_arguments ++ [r], st.removed_arguments.length + 1⟩))
    ∧ (∀ (q : Document) (ign : Option (List String))
        (exv : List (String × PyValue)) (d' : Document) (vals : List PyValue),
        remove_values q ign exv = .ok (d', vals) →
        d'.definitions.map defVardefs = q.definitions.map defVardefs)
    ∧ (∀ (ign : List String) (exv : List (String × PyValue)) (nm : String)
        (v : Value) (st : RVState), nm ∈ ign → v.isContainer = false →
        rvValue ⟨some ign, exv⟩ (some nm) v st = .ok (v, st)) := by
  refine ⟨?_, extractValue_indexes, ?_, rvValue_ignored_scalar⟩
  · intro ctx defs st out h hst
    exact (rvDefinitions_aligned_vardefs ctx defs st out h hst).1
  · intro q ign exv d' vals h
    rw [remove_values, exceptBind_ok] at h
    obtain ⟨⟨defs', st'⟩, h1, h2⟩ := h
    simp only [Except.ok.injEq, Prod.mk.injEq] at h2
    have := (rvDefinitions_aligned_vardefs ⟨ign, exv⟩ q.definitions ⟨[], 0⟩
      (defs', st') h1 rfl).2
    rw [← h2.1]
    exact this

/-- Witness for the amended C8: extraction at counter 0 mints `$_0` and
appends at index 0; an ignored scalar argument value is left in place
with the state unchanged. -/
theorem remove_values_placeholders_witness :
    extractValue ⟨none, []⟩ (.intV "42") ⟨[], 0⟩
      = .ok (.varV ("_" ++ toString (List.length ([] : List PyValue))),
          ⟨[] ++ [.pyInt 42], List.length ([] : List PyValue) + 1⟩)
    ∧ rvValue ⟨some ["skip"], []⟩ (some "skip") (.intV "3") ⟨[], 0⟩
      = .ok (.intV "3", ⟨[], 0⟩) :=
  ⟨remove_values_placeholders.2.1 ⟨none, []⟩ (.intV "42") ⟨[], 0⟩ (.pyInt 42) rfl rfl,
   remove_values_placeholders.2.2.2 ["skip"] [] "skip" (.intV "3") ⟨[], 0⟩
     (by decide) rfl⟩

/-- **C1, evaluated at the failing input**: the extraction half of the
round trip works — on the literal-only document
`{ token(something_int: 42) { name id } }`, `remove_values` produces
the parameterized document with `$_0` and the value list `[42]`.  The
insertion half `insert_variables` cannot run at all in this source
tree: `tools.insert_variables` constructs `InsertVariables(variables)`
while `visitors.InsertVariables.__init__` requires a second `type_info`
argument (the repo's own tests call
`insert_variables(query, schema, variables)`), so every call raises
`TypeError` before visiting a single node. -/
theorem remove_values_roundtrip_extraction_eval :
    remove_values
        ⟨[.operation ⟨.query, none, [],
          [.field none "token" [⟨"something_int", .intV "42"⟩]
            (some [.field none "name" [] none, .field none "id" [] none])]⟩]⟩
        none []
      = .ok (⟨[.operation ⟨.query, none, [],
          [.field none "token" [⟨"something_int", .varV "_0"⟩]
            (some [.field none "name" [] none, .field none "id" [] none])]⟩]⟩,
          [.pyInt 42]) := rfl

end Gql
